import Mathlib

/-!
Shallow embedding of `maltpynt/exposure.py` (functions `get_livetime_per_bin`
and the core transform of `correct_lightcurve`) over exact rational arithmetic.

Conventions of the embedding:
* NumPy float arrays become `List ℚ`; the literal `1e-9` becomes the exact
  rational `1 / 10^9` (`EPS`).
* `np.searchsorted(a, v, side='right')` is modelled by `ssRight`, the number of
  keys `≤ v`; this is the documented result of NumPy's binary search whenever
  the key array is sorted, and every execution path analysed below keeps the
  key array (`tbin_starts`) sorted.
* Fancy-indexed gather `a[idx]` wraps negative indices (NumPy semantics) and
  raises `IndexError` when out of bounds (`npGetQ`).
* Fancy-indexed accumulation `a[idx] += v` gathers from the *original* array
  and scatters with last-write-wins on duplicated indices, which is NumPy's
  buffered-assignment behaviour (`scatterAdd`).
* Exceptions (assertion failures, `IndexError` from `events[0]` on an empty
  array or from `times[-1]`, `ValueError` from `np.max` of an empty array or
  from non-monotonic histogram bins, broadcast failures) are modelled with
  `Except ExpoErr`.  A `dt` array whose length differs from `len(times)`
  broadcast-fails at `times - dt / 2`; NumPy's length-1-array special case is
  not needed by any claim and is mapped to the same error.
-/

instance {ε α : Type} [DecidableEq ε] [DecidableEq α] : DecidableEq (Except ε α) :=
  fun a b =>
    match a, b with
    | .ok x, .ok y =>
        if h : x = y then .isTrue (by rw [h]) else .isFalse (by simp [h])
    | .error x, .error y =>
        if h : x = y then .isTrue (by rw [h]) else .isFalse (by simp [h])
    | .ok _, .error _ => .isFalse (by simp)
    | .error _, .ok _ => .isFalse (by simp)

inductive ExpoErr where
  | lengthMismatch
  | indexError
  | broadcastError
  | nonMonotonicBins
  | emptyMax
  | invalidBoundaries
  | negativeExpo
deriving DecidableEq

/-- One event of the unfiltered stream, in the shifted time frame:
`ev` mirrors `ev_fl`, `pr` mirrors `pr_fl`, `lts` mirrors `livetime_starts`. -/
structure Trip where
  ev : ℚ
  pr : ℚ
  lts : ℚ
deriving DecidableEq

/-- The literal `1e-9` used by the clamping offsets. -/
def EPS : ℚ := 1 / 1000000000

/-- Model of `np.diff`. -/
def npDiff (l : List ℚ) : List ℚ := List.zipWith (fun a b => b - a) l l.tail

/-- Insertion into a sorted list, used to model NumPy's sort. -/
def insertSorted (x : ℚ) : List ℚ → List ℚ
  | [] => [x]
  | y :: t => if x ≤ y then x :: y :: t else y :: insertSorted x t

/-- Sorting, used to model NumPy's median. -/
def sortQ (l : List ℚ) : List ℚ := l.foldr insertSorted []

/-- Model of `np.median`: sort, take the middle element, or the mean of the two
middle elements for even length. -/
def npMedian (l : List ℚ) : ℚ :=
  let s := sortQ l
  let n := s.length
  if n % 2 = 1 then s.getD (n / 2) 0
  else (s.getD (n / 2 - 1) 0 + s.getD (n / 2) 0) / 2

/-- Model of `np.searchsorted(a, v, side='right')`: for a sorted key array this
is the number of keys `≤ v`. -/
def ssRight (a : List ℚ) (v : ℚ) : ℕ := (a.filter (fun x => decide (x ≤ v))).length

/-- NumPy index resolution: negative indices wrap once, out-of-range is an
error. -/
def npIdx (n : ℕ) (i : ℤ) : Option ℕ :=
  if 0 ≤ i ∧ i < (n : ℤ) then some i.toNat
  else if -(n : ℤ) ≤ i ∧ i < 0 then some (i + (n : ℤ)).toNat
  else none

/-- Gather of one element, `a[i]` with NumPy index semantics. -/
def npGetQ (a : List ℚ) (i : ℤ) : Except ExpoErr ℚ :=
  match npIdx a.length i with
  | some j => .ok (a.getD j 0)
  | none => .error .indexError

/-- Gather of an index array, `a[idx]`. -/
def gatherQ (a : List ℚ) : List ℤ → Except ExpoErr (List ℚ)
  | [] => .ok []
  | i :: rest => do
      let x ← npGetQ a i
      let r ← gatherQ a rest
      .ok (x :: r)

/-- The update list of `arr[idx] += vals`: pairs of resolved index and
(original value + increment), gathered from the array before any write. -/
def gatherAdds (arr : List ℚ) : List (ℤ × ℚ) → Except ExpoErr (List (ℕ × ℚ))
  | [] => .ok []
  | (i, v) :: rest =>
      match npIdx arr.length i with
      | some j => do
          let r ← gatherAdds arr rest
          .ok ((j, arr.getD j 0 + v) :: r)
      | none => .error .indexError

/-- Model of the fancy-indexed accumulation `arr[idx] += vals`: gather the
original values, add, scatter back; a duplicated index keeps only its last
write (NumPy's buffered assignment). -/
def scatterAdd (arr : List ℚ) (idx : List ℤ) (vals : List ℚ) :
    Except ExpoErr (List ℚ) := do
  let upds ← gatherAdds arr (idx.zip vals)
  .ok (upds.foldl (fun a u => a.set u.1 u.2) arr)

/-- Monotonicity test applied by `np.histogram` to its bin edges. -/
def monotoneB : List ℚ → Bool
  | [] => true
  | [_] => true
  | a :: b :: t => decide (a ≤ b) && monotoneB (b :: t)

/-- Bin index assigned by `np.histogram` for sorted edges: half-open bins
`[e_i, e_i+1)`, with the last bin closed on the right; out-of-range points are
dropped. -/
def histIdx (tbins : List ℚ) (x : ℚ) : Option ℕ :=
  if x < tbins.headD 0 ∨ tbins.getLastD 0 < x then none
  else if x = tbins.getLastD 0 then some (tbins.length - 2)
  else some (ssRight tbins x - 1)

/-- Model of `np.histogram(xs, bins=tbins, weights=ws)` (first component). -/
def histogramW (tbins xs ws : List ℚ) : Except ExpoErr (List ℚ) :=
  if monotoneB tbins then
    .ok ((List.range (tbins.length - 1)).map (fun i =>
      ((xs.zip ws).filter (fun p => decide (histIdx tbins p.1 = some i))).foldl
        (fun s p => s + p.2) 0))
  else .error .nonMonotonicBins

/-- Lines 49-54: `dt = _assign_value_if_none(dt, np.median(np.diff(times)))`
followed by the broadcast `dt = dt + np.zeros(len(times))` when `dt` is a
scalar. -/
def resolveDt (times : List ℚ) (dt : Option (ℚ ⊕ List ℚ)) : List ℚ :=
  match dt with
  | none => List.replicate times.length (npMedian (npDiff times))
  | some (.inl x) => List.replicate times.length x
  | some (.inr a) => a

/-- Lines 63-67: the `N+1` bin borders
`np.append(times - dt / 2, [times[-1] + dt[-1] / 2]) - events[0]`. -/
def tbinsOf (times dtA : List ℚ) (e0 : ℚ) : List ℚ :=
  (List.zipWith (fun t d => t - d / 2) times dtA
    ++ [times.getLastD 0 + dtA.getLastD 0 / 2]).map (fun x => x - e0)

/-- Lines 56-61: shifted events, priors and livetime starts. -/
def initTrips (events priors : List ℚ) (e0 : ℚ) : List Trip :=
  List.zipWith (fun e p => { ev := e - e0, pr := p, lts := e - e0 - p }) events priors

/-- Line 72: `filter = (ev_fl > tbins[0]) & (livetime_starts < tbins[-1])`. -/
def keptTrips (tbins : List ℚ) (trips : List Trip) : List Trip :=
  trips.filter (fun t =>
    decide (tbins.headD 0 < t.ev) && decide (t.lts < tbins.getLastD 0))

/-- Lines 80-84: clamp a livetime start that precedes the first border when the
event itself is past it, shrinking the prior accordingly. -/
def normStart (tb0 : ℚ) (t : Trip) : Trip :=
  if t.lts < tb0 ∧ tb0 < t.ev then
    { ev := t.ev, lts := tb0 + EPS, pr := t.ev - (tb0 + EPS) }
  else t

/-- Lines 86-89: clamp an event past the last border, shrinking the prior
accordingly. -/
def normEnd (tbLast : ℚ) (t : Trip) : Trip :=
  if t.lts < tbLast ∧ tbLast < t.ev then
    { ev := tbLast - EPS, lts := t.lts, pr := (tbLast - EPS) - t.lts }
  else t

/-- Line 94: `lts_bin = np.searchsorted(tbin_starts, livetime_starts, 'right') - 1`. -/
def ltsBinOf (tbinStarts : List ℚ) (t : Trip) : ℤ := (ssRight tbinStarts t.lts : ℤ) - 1

/-- Line 95: `ev_bin = np.searchsorted(tbin_starts, ev_fl, 'right') - 1`. -/
def evBinOf (tbinStarts : List ℚ) (t : Trip) : ℤ := (ssRight tbinStarts t.ev : ℤ) - 1

/-- Lines 133-136: credit every fully interior bin `lts_bin + i`,
`i = 1 .. bin_diff - 1`, with its whole width `dt[lts_bin + i]`; the argument
`rem` counts the remaining iterations. -/
def innerFill (dtA : List ℚ) (ltsBinGood : List ℤ) :
    ℕ → ℕ → List ℚ → Except ExpoErr (List ℚ)
  | _, 0, arr => .ok arr
  | i, rem + 1, arr => do
      let vals ← gatherQ dtA (ltsBinGood.map (· + (i : ℤ)))
      let arr1 ← scatterAdd arr (ltsBinGood.map (· + (i : ℤ))) vals
      innerFill dtA ltsBinGood (i + 1) rem arr1

/-- Lines 110-136: one pass of the span loop, handling the events whose
`ev_bin - lts_bin` equals `binDiff`: terminal partial bin, assert, initial
partial bin, assert, then the interior bins. -/
def passBody (tbinStarts dtA : List ℚ) (trips : List Trip) (binDiff : ℕ)
    (arr : List ℚ) : Except ExpoErr (List ℚ) := do
  let good := trips.filter (fun t =>
    decide (evBinOf tbinStarts t = ltsBinOf tbinStarts t + (binDiff : ℤ)))
  let eIdx := good.map (fun t => (ssRight tbinStarts t.ev : ℤ) - 1)
  let tbE ← gatherQ tbinStarts eIdx
  let termVals := List.zipWith (fun t x => t.ev - x) good tbE
  let arr1 ← scatterAdd arr (good.map (evBinOf tbinStarts)) termVals
  if termVals.all (fun v => decide (0 ≤ v)) then
    let lIdx := good.map (fun t => (ssRight tbinStarts t.lts : ℤ))
    let tbL ← gatherQ tbinStarts lIdx
    let initVals := List.zipWith (fun x t => x - t.lts) tbL good
    let arr2 ← scatterAdd arr1 (good.map (ltsBinOf tbinStarts)) initVals
    if initVals.all (fun v => decide (0 ≤ v)) then
      innerFill dtA (good.map (ltsBinOf tbinStarts)) 1 (binDiff - 1) arr2
    else .error .invalidBoundaries
  else .error .invalidBoundaries

/-- Line 109: `for bin_diff in range(max_bin_diff, 0, -1)`; the fuel is the
current `bin_diff`. -/
def spanLoop (tbinStarts dtA : List ℚ) (trips : List Trip) :
    ℕ → List ℚ → Except ExpoErr (List ℚ)
  | 0, arr => .ok arr
  | d + 1, arr => do
      let arr1 ← passBody tbinStarts dtA trips (d + 1) arr
      spanLoop tbinStarts dtA trips d arr1

/-- Lines 80-89 applied to the whole (filtered) arrays: both clamp masks are
elementwise, the `after_end` mask reading the `livetime_starts` already updated
by the `before_start` assignment. -/
def normTrips (tbins : List ℚ) (trips : List Trip) : List Trip :=
  trips.map (fun t => normEnd (tbins.getLastD 0) (normStart (tbins.headD 0) t))

/-- Lines 93-136: bin assignment, same-bin histogram pass (with the line-102
check as written in the source), `max_bin_diff`, and the span loop. -/
def accumulate (times tbins dtA : List ℚ) (normed : List Trip) :
    Except ExpoErr (List ℚ) :=
  let tbinStarts := tbins.dropLast
  let firstPass := normed.filter (fun t =>
    decide (evBinOf tbinStarts t = ltsBinOf tbinStarts t))
  match histogramW tbins (firstPass.map (·.ev)) (firstPass.map (·.pr)) with
  | .error e => .error e
  | .ok expo =>
    -- line 102: `assert np.all(expo) >= 0`; `np.all` yields a boolean, which
    -- is then compared with 0, so the test passes whether the boolean is
    -- True (1 >= 0) or False (0 >= 0).
    if (if expo.all (fun x => decide (x ≠ 0)) then (1 : ℤ) else 0) ≥ 0 then
      let livetime0 := List.zipWith (· + ·)
        (List.replicate times.length (0 : ℚ)) expo
      match normed.map (fun t =>
          evBinOf tbinStarts t - ltsBinOf tbinStarts t) with
      | [] => .error .emptyMax  -- line 107: `np.max` of an empty array
      | d :: ds =>
        spanLoop tbinStarts dtA normed (ds.foldl max d).toNat livetime0
    else .error .negativeExpo

/-- Embedding of `get_livetime_per_bin(times, events, priors, dt, gti)`
(`maltpynt/exposure.py`, lines 18-138).  The `gti` argument is accepted, and,
as in the source, never read. -/
def get_livetime_per_bin (times events priors : List ℚ)
    (dt : Option (ℚ ⊕ List ℚ)) (gti : Option (List (ℚ × ℚ))) :
    Except ExpoErr (List ℚ) :=
  -- line 46: `assert len(events) == len(priors)`
  if events.length ≠ priors.length then .error .lengthMismatch
  else
    let dtA := resolveDt times dt
    if events = [] then .error .indexError   -- line 57: `events[0]`, empty array
    else if times = [] then .error .indexError  -- line 66: `times[-1]`, empty
    else if dtA.length ≠ times.length then .error .broadcastError
    else
      let e0 := events.headD 0
      let tbins := tbinsOf times dtA e0
      accumulate times tbins dtA
        (normTrips tbins (keptTrips tbins (initTrips events priors e0)))

/-- Embedding of the exposure-correction core of `correct_lightcurve`
(`maltpynt/exposure.py`, lines 288-290):
`newlc = np.array(lc / expo * dt); newlc[expo < expo_limit] = 0`. -/
def correct_lc_core (lc expo : List ℚ) (dt expoLimit : ℚ) : List ℚ :=
  let newlc := (lc.zip expo).map (fun p => p.1 / p.2 * dt)
  (newlc.zip expo).map (fun p => if p.2 < expoLimit then 0 else p.1)

/-! ### Claim C2: the concrete three-bin scenario -/

/-- C2: on `times = [0.5, 1.5, 2.5]`, `events = [2.2]`, `priors = [1.5]`,
`dt = 1.0`, the function returns `[0.3, 1.0, 0.2]`: 0.3 into bin 0 (from 0.7
to the edge at 1.0), the full width 1.0 into the interior bin 1, and 0.2 into
bin 2 (from the edge at 2.0 to the event at 2.2), totalling the prior 1.5. -/
theorem c2_concrete_scenario :
    get_livetime_per_bin [1/2, 3/2, 5/2] [11/5] [3/2] (some (Sum.inl 1)) none =
      Except.ok [3/10, 1, 1/5] := by
  norm_num [get_livetime_per_bin, resolveDt, tbinsOf, initTrips, keptTrips,
    normTrips, normStart, normEnd, accumulate, histogramW, histIdx, monotoneB,
    ssRight, evBinOf, ltsBinOf, spanLoop, passBody, innerFill, gatherQ, npGetQ,
    npIdx, scatterAdd, gatherAdds, EPS, List.filter, List.replicate,
    List.zipWith, List.map, List.headD, List.getLastD, List.getLast?,
    List.head?, Option.getD, Option.map, Option.or, List.getD, List.foldl,
    List.all, List.zip, List.range_succ, List.dropLast, List.set, List.length,
    List.tail, List.append, List.get?, Int.toNat, Except.instMonad,
    Except.bind, Except.pure, Bind.bind, Pure.pure] <;> simp

/-! ### Claim C4: the same-bin non-negativity check is vacuous -/

/-- C4: on `times = [0.5]`, `events = [0.4]`, `priors = [-0.05]`, `dt = 1.0`,
the event and its livetime start share bin 0, the histogram pass accumulates
the negative weight `-0.05`, and the function returns `[-0.05]` without
raising: the line-102 statement `assert np.all(expo) >= 0` compares the
boolean `np.all(expo)` with `0` and therefore never fails. -/
theorem c4_negative_samebin_contribution_returned :
    get_livetime_per_bin [1/2] [2/5] [-1/20] (some (Sum.inl 1)) none =
      Except.ok [-1/20] := by
  norm_num [get_livetime_per_bin, resolveDt, tbinsOf, initTrips, keptTrips,
    normTrips, normStart, normEnd, accumulate, histogramW, histIdx, monotoneB,
    ssRight, evBinOf, ltsBinOf, spanLoop, passBody, innerFill, gatherQ, npGetQ,
    npIdx, scatterAdd, gatherAdds, EPS, List.filter, List.replicate,
    List.zipWith, List.map, List.headD, List.getLastD, List.getLast?,
    List.head?, Option.getD, Option.map, Option.or, List.getD, List.foldl,
    List.all, List.zip, List.range_succ, List.dropLast, List.set, List.length,
    List.tail, List.append, List.get?, Int.toNat, Except.instMonad,
    Except.bind, Except.pure, Bind.bind, Pure.pure] <;> simp

/-! ### Claim C5: which malformed inputs are rejected -/

/-- C5 counterexample: `times = [1, 0.9]` is not ascending (and the width
array `dt = [3, 1]` keeps the derived bin borders ordered), yet the function
neither raises nor corrects anything: it returns `[0.1, 0.1]`.  So the claim
that a non-ascending time axis (or a negative prior) is rejected up front is
false. -/
theorem c5_counterexample_unsorted_times_accepted :
    ¬ ((1 : ℚ) ≤ 9/10) ∧
    get_livetime_per_bin [1, 9/10] [1/2] [1/5] (some (Sum.inr [3, 1])) none =
      Except.ok [1/10, 1/10] := by
  refine ⟨by norm_num, ?_⟩
  norm_num [get_livetime_per_bin, resolveDt, tbinsOf, initTrips, keptTrips,
    normTrips, normStart, normEnd, accumulate, histogramW, histIdx, monotoneB,
    ssRight, evBinOf, ltsBinOf, spanLoop, passBody, innerFill, gatherQ, npGetQ,
    npIdx, scatterAdd, gatherAdds, EPS, List.filter, List.replicate,
    List.zipWith, List.map, List.headD, List.getLastD, List.getLast?,
    List.head?, Option.getD, Option.map, Option.or, List.getD, List.foldl,
    List.all, List.zip, List.range_succ, List.dropLast, List.set, List.length,
    List.tail, List.append, List.get?, Int.toNat, Except.instMonad,
    Except.bind, Except.pure, Bind.bind, Pure.pure] <;> simp

/-- C5 amended: the only up-front input check is the length comparison of
line 46; whenever `len(events) != len(priors)` the function raises before any
computation.  Negative priors and a non-ascending time axis are not checked
(see the counterexample). -/
theorem c5_amended_length_mismatch_rejected
    (times events priors : List ℚ) (dt : Option (ℚ ⊕ List ℚ))
    (gti : Option (List (ℚ × ℚ))) (h : events.length ≠ priors.length) :
    get_livetime_per_bin times events priors dt gti =
      Except.error ExpoErr.lengthMismatch := by
  simp [get_livetime_per_bin, h]

/-- C5 witness: a concrete length-mismatched call is rejected. -/
theorem c5_amended_witness :
    ([2, 3] : List ℚ).length ≠ ([1] : List ℚ).length ∧
    get_livetime_per_bin [1] [2, 3] [1] none none =
      Except.error ExpoErr.lengthMismatch :=
  ⟨by decide, c5_amended_length_mismatch_rejected [1] [2, 3] [1] none none (by decide)⟩

/-! ### Claim C9: the `gti` argument never influences the result -/

/-- C9: for every input and every value of `gti`, the result equals the result
with `gti = None`: the body of `get_livetime_per_bin` never reads `gti`. -/
theorem c9_gti_noninterference (times events priors : List ℚ)
    (dt : Option (ℚ ⊕ List ℚ)) (gti : Option (List (ℚ × ℚ))) :
    get_livetime_per_bin times events priors dt gti =
      get_livetime_per_bin times events priors dt none := rfl

/-! ### Claim C8: the exposure-correction consumer -/

/-- Unfolding of the correction transform on a leading element. -/
theorem correct_lc_core_cons (a b : ℚ) (lc expo : List ℚ) (dt lim : ℚ) :
    correct_lc_core (a :: lc) (b :: expo) dt lim =
      (if b < lim then 0 else a / b * dt) :: correct_lc_core lc expo dt lim := rfl

/-- C8: on equal-length inputs, the corrected light curve has one entry per
input bin; a bin whose exposure is below the threshold is set to exactly zero,
and every other bin carries `raw / livetime * bin_width`. -/
theorem c8_exposure_correction (lc expo : List ℚ) (dt lim : ℚ)
    (h : lc.length = expo.length) :
    (correct_lc_core lc expo dt lim).length = lc.length ∧
    ∀ i, i < lc.length →
      (correct_lc_core lc expo dt lim).getD i 0 =
        if expo.getD i 0 < lim then 0
        else lc.getD i 0 / expo.getD i 0 * dt := by
  induction lc generalizing expo with
  | nil => exact ⟨rfl, fun i hi => absurd hi (by simp)⟩
  | cons a lc ih =>
    cases expo with
    | nil => simp at h
    | cons b expo =>
      have h' : lc.length = expo.length := by simpa using h
      obtain ⟨hlen, helem⟩ := ih expo h'
      refine ⟨?_, ?_⟩
      · simpa [correct_lc_core_cons] using hlen
      · intro i hi
        cases i with
        | zero => simp [correct_lc_core_cons]
        | succ j =>
          have hj : j < lc.length := by simpa using hi
          simpa [correct_lc_core_cons] using helem j hj

/-- C8 witness: a two-bin instance, one bin below threshold, one above. -/
theorem c8_witness :
    ([4, 5] : List ℚ).length = ([2, 0] : List ℚ).length ∧
    ((correct_lc_core [4, 5] [2, 0] 3 1).length = ([4, 5] : List ℚ).length ∧
      ∀ i, i < ([4, 5] : List ℚ).length →
        (correct_lc_core [4, 5] [2, 0] 3 1).getD i 0 =
          if ([2, 0] : List ℚ).getD i 0 < 1 then 0
          else ([4, 5] : List ℚ).getD i 0 / ([2, 0] : List ℚ).getD i 0 * 3) :=
  ⟨by decide, c8_exposure_correction [4, 5] [2, 0] 3 1 (by decide)⟩

/-! ### Claim C10: empty events or an emptied filter raise -/

/-- Helper: the line-102 check always passes, whatever the histogram
returned. -/
theorem vacuous_all_check (b : Bool) : (if b = true then (1 : ℤ) else 0) ≥ 0 := by
  cases b <;> simp

/-- C10: with an empty event list the function raises (`events[0]`,
an `IndexError`), and with a nonempty event list that the in-range filter
empties completely it raises at `np.max` of an empty array (a `ValueError`);
in neither case is an all-zero livetime array returned. -/
theorem c10_degenerate_inputs_raise :
    (∀ (times : List ℚ) (dt : Option (ℚ ⊕ List ℚ)) (gti : Option (List (ℚ × ℚ))),
      get_livetime_per_bin times [] [] dt gti = Except.error ExpoErr.indexError) ∧
    (∀ (times events priors : List ℚ) (dt : Option (ℚ ⊕ List ℚ))
        (gti : Option (List (ℚ × ℚ))),
      times ≠ [] → events ≠ [] → events.length = priors.length →
      (resolveDt times dt).length = times.length →
      monotoneB (tbinsOf times (resolveDt times dt) (events.headD 0)) = true →
      keptTrips (tbinsOf times (resolveDt times dt) (events.headD 0))
          (initTrips events priors (events.headD 0)) = [] →
      get_livetime_per_bin times events priors dt gti =
        Except.error ExpoErr.emptyMax) := by
  constructor
  · intro times dt gti
    simp [get_livetime_per_bin]
  · intro times events priors dt gti htne hene hlen hdta hmono hkept
    match events, hene with
    | e0 :: es, _ =>
      match times, htne with
      | t0 :: ts, _ =>
        simp only [List.headD] at hmono hkept
        simp only [get_livetime_per_bin, hlen, ne_eq, not_true_eq_false,
          if_false, ite_false, hdta, not_false_eq_true, if_neg, if_true,
          List.headD, List.cons_ne_nil]
        rw [hkept]
        simp only [normTrips, List.map_nil, accumulate, List.filter_nil]
        rw [histogramW, if_pos hmono]
        simp [vacuous_all_check]
        split <;> norm_num

/-- C10 witness: concrete instances of both degenerate cases: an empty event
list, and a single event at `t = 5` entirely outside the axis of `times =
[0.5]`, `dt = 1`. -/
theorem c10_witness :
    get_livetime_per_bin [1/2] [] [] none none = Except.error ExpoErr.indexError ∧
    get_livetime_per_bin [1/2] [5] [1/10] (some (Sum.inl 1)) none =
      Except.error ExpoErr.emptyMax :=
  ⟨c10_degenerate_inputs_raise.1 [1/2] none none,
    c10_degenerate_inputs_raise.2 [1/2] [5] [1/10] (some (Sum.inl 1)) none
      (by decide) (by decide) (by decide) (by decide)
      (by norm_num [tbinsOf, resolveDt, monotoneB, List.headD, List.getLastD,
        List.getLast?, Option.getD, List.zipWith, List.replicate, List.map,
        List.append])
      (by norm_num [keptTrips, tbinsOf, resolveDt, initTrips, List.headD,
        List.getLastD, List.getLast?, Option.getD, List.zipWith,
        List.replicate, List.map, List.append, List.filter, List.head?,
        Option.map, Option.or])⟩

/-! ### Claim C7: bin geometry construction -/

/-- Helper: last element with default as an indexed access. -/
theorem getLastD_eq_getD (l : List ℚ) (d : ℚ) :
    l.getLastD d = l.getD (l.length - 1) d := by
  rw [List.getLastD_eq_getLast?, List.getLast?_eq_getElem?, List.getD_eq_getElem?_getD]

/-- Helper: length of the border list. -/
theorem tbinsOf_length (times dtA : List ℚ) (e0 : ℚ)
    (h : dtA.length = times.length) :
    (tbinsOf times dtA e0).length = times.length + 1 := by
  simp [tbinsOf, h]

/-- Helper: the first `N` borders. -/
theorem tbinsOf_getD_lt (times dtA : List ℚ) (e0 : ℚ) (i : ℕ)
    (h : dtA.length = times.length) (hi : i < times.length) :
    (tbinsOf times dtA e0).getD i 0 =
      times.getD i 0 - dtA.getD i 0 / 2 - e0 := by
  have hz : i < (List.zipWith (fun t d => t - d / 2) times dtA).length := by
    rw [List.length_zipWith, h]; omega
  have hlen : i < (tbinsOf times dtA e0).length := by
    rw [tbinsOf_length _ _ _ h]; omega
  rw [List.getD_eq_getElem _ _ hlen, List.getD_eq_getElem _ _ hi,
    List.getD_eq_getElem _ _ (show i < dtA.length by omega)]
  simp only [tbinsOf]
  rw [List.getElem_map, List.getElem_append_left hz, List.getElem_zipWith]

/-- Helper: the final border. -/
theorem tbinsOf_getD_last (times dtA : List ℚ) (e0 : ℚ)
    (h : dtA.length = times.length) (hne : times ≠ []) :
    (tbinsOf times dtA e0).getD times.length 0 =
      times.getD (times.length - 1) 0 + dtA.getD (times.length - 1) 0 / 2 - e0 := by
  have hz : (List.zipWith (fun t d => t - d / 2) times dtA).length = times.length := by
    rw [List.length_zipWith, h]; omega
  have hlen : times.length < (tbinsOf times dtA e0).length := by
    rw [tbinsOf_length _ _ _ h]; omega
  rw [List.getD_eq_getElem _ _ hlen]
  simp only [tbinsOf]
  rw [List.getElem_map, List.getElem_append_right (by omega)]
  simp only [hz, Nat.sub_self, List.getElem_singleton]
  rw [getLastD_eq_getD, getLastD_eq_getD, h]

/-- Helper: mapping a shift over a list commutes with taking the tail. -/
theorem tail_map_q (f : ℚ → ℚ) (l : List ℚ) : (l.map f).tail = l.tail.map f := by
  cases l <;> simp

/-- Helper: `np.diff` is invariant under a constant shift. -/
theorem npDiff_shift (l : List ℚ) (c : ℚ) : npDiff (l.map (· + c)) = npDiff l := by
  unfold npDiff
  rw [tail_map_q, List.zipWith_map_left, List.zipWith_map_right]
  have hf : (fun (a b : ℚ) => b + c - (a + c)) = fun a b => b - a := by
    funext a b; ring
  rw [hf]

/-- Helper: `resolveDt` is invariant under a constant shift of the axis. -/
theorem resolveDt_shift (times : List ℚ) (dt : Option (ℚ ⊕ List ℚ)) (c : ℚ) :
    resolveDt (times.map (· + c)) dt = resolveDt times dt := by
  cases dt with
  | none => simp [resolveDt, npDiff_shift]
  | some v => cases v with
    | inl x => simp [resolveDt]
    | inr a => rfl

/-- Helper: last element of a shifted nonempty list. -/
theorem getLastD_map_add (l : List ℚ) (c : ℚ) (h : l ≠ []) :
    (l.map (· + c)).getLastD 0 = l.getLastD 0 + c := by
  induction l with
  | nil => cases h rfl
  | cons a t ih =>
    cases t with
    | nil => simp
    | cons b t2 => simpa using ih (by simp)

/-- Helper: the borders only depend on the axis and first event through their
differences: shifting `times` and `events[0]` together changes nothing. -/
theorem tbinsOf_shift (times dtA : List ℚ) (e0 c : ℚ) (h : times ≠ []) :
    tbinsOf (times.map (· + c)) dtA (e0 + c) = tbinsOf times dtA e0 := by
  unfold tbinsOf
  rw [List.zipWith_map_left, getLastD_map_add _ _ h]
  have h1 : (fun (t d : ℚ) => t + c - d / 2) = fun t d => (t - d / 2) + c := by
    funext t d; ring
  rw [h1, ← List.map_zipWith (· + c) (fun t d => t - d / 2)]
  rw [show [times.getLastD 0 + c + dtA.getLastD 0 / 2]
      = [times.getLastD 0 + dtA.getLastD 0 / 2].map (· + c) by simp; ring]
  rw [← List.map_append, List.map_map]
  congr 1
  funext x
  simp only [Function.comp_apply]
  ring

/-- Helper: the shifted trips only depend on differences to `events[0]`. -/
theorem initTrips_shift (events priors : List ℚ) (e0 c : ℚ) :
    initTrips (events.map (· + c)) priors (e0 + c) = initTrips events priors e0 := by
  unfold initTrips
  rw [List.zipWith_map_left]
  have hf : (fun (e p : ℚ) =>
        ({ ev := e + c - (e0 + c), pr := p, lts := e + c - (e0 + c) - p } : Trip))
      = fun e p => { ev := e - e0, pr := p, lts := e - e0 - p } := by
    funext e p
    have h1 : e + c - (e0 + c) = e - e0 := by ring
    rw [h1]
  rw [hf]

/-- Helper: the accumulation stage reads `times` only through its length. -/
theorem accumulate_times_congr (t1 t2 tbins dtA : List ℚ) (normed : List Trip)
    (h : t1.length = t2.length) :
    accumulate t1 tbins dtA normed = accumulate t2 tbins dtA normed := by
  unfold accumulate
  rw [h]

/-- Helper: head with default of a shifted nonempty list. -/
theorem headD_map_add (l : List ℚ) (c : ℚ) (h : l ≠ []) :
    (l.map (· + c)).headD 0 = l.headD 0 + c := by
  cases l with
  | nil => cases h rfl
  | cons a t => simp

/-- C7: when `dt` is omitted it is the median of consecutive differences of
`times`; a scalar `dt` is broadcast to an array of length `len(times)`; the
`N+1` borders are `times[i] - dt[i]/2` followed by `times[-1] + dt[-1]/2`
(here stated about `tbinsOf`, whose entries the function shifts by
`events[0]`); and because every time enters the computation only relative to
`events[0]`, translating the whole input frame leaves the result unchanged. -/
theorem c7_bin_geometry :
    (∀ (times events priors : List ℚ) (gti : Option (List (ℚ × ℚ))),
      get_livetime_per_bin times events priors none gti =
        get_livetime_per_bin times events priors
          (some (Sum.inl (npMedian (npDiff times)))) gti) ∧
    (∀ (times events priors : List ℚ) (x : ℚ) (gti : Option (List (ℚ × ℚ))),
      get_livetime_per_bin times events priors (some (Sum.inl x)) gti =
        get_livetime_per_bin times events priors
          (some (Sum.inr (List.replicate times.length x))) gti) ∧
    (∀ (times dtA : List ℚ) (e0 : ℚ), dtA.length = times.length → times ≠ [] →
      (tbinsOf times dtA e0).length = times.length + 1 ∧
      (∀ i, i < times.length →
        (tbinsOf times dtA e0).getD i 0 = times.getD i 0 - dtA.getD i 0 / 2 - e0) ∧
      (tbinsOf times dtA e0).getD times.length 0 =
        times.getD (times.length - 1) 0 + dtA.getD (times.length - 1) 0 / 2 - e0) ∧
    (∀ (times events priors : List ℚ) (dt : Option (ℚ ⊕ List ℚ))
        (gti : Option (List (ℚ × ℚ))) (c : ℚ),
      get_livetime_per_bin (times.map (· + c)) (events.map (· + c)) priors dt gti =
        get_livetime_per_bin times events priors dt gti) := by
  refine ⟨fun _ _ _ _ => rfl, fun _ _ _ _ _ => rfl, ?_, ?_⟩
  · intro times dtA e0 h hne
    exact ⟨tbinsOf_length times dtA e0 h,
      fun i hi => tbinsOf_getD_lt times dtA e0 i h hi,
      tbinsOf_getD_last times dtA e0 h hne⟩
  · intro times events priors dt gti c
    rcases eq_or_ne events [] with he | he
    · subst he; simp [get_livetime_per_bin]
    rcases eq_or_ne times [] with ht | ht
    · subst ht
      simp only [get_livetime_per_bin, List.map_nil, List.length_map]
      split <;> simp [he]
    have hme : events.map (· + c) ≠ [] := by
      simpa using he
    have hmt : times.map (· + c) ≠ [] := by
      simpa using ht
    simp only [get_livetime_per_bin, List.length_map, resolveDt_shift,
      if_neg, hme, hmt, he, ht, if_false, ite_false,
      headD_map_add events c he]
    rw [tbinsOf_shift _ _ _ _ ht, initTrips_shift _ _ _ _,
      accumulate_times_congr (times.map (· + c)) times _ _ _ (by simp)]

/-- C7 witness: the border characterisation applied at `times = [1, 3]`,
`dt = [2, 4]`, `events[0] = 5`. -/
theorem c7_witness :
    ([2, 4] : List ℚ).length = ([1, 3] : List ℚ).length ∧
    ([1, 3] : List ℚ) ≠ [] ∧
    ((tbinsOf [1, 3] [2, 4] 5).length = ([1, 3] : List ℚ).length + 1 ∧
      (∀ i, i < ([1, 3] : List ℚ).length →
        (tbinsOf [1, 3] [2, 4] 5).getD i 0 =
          ([1, 3] : List ℚ).getD i 0 - ([2, 4] : List ℚ).getD i 0 / 2 - 5) ∧
      (tbinsOf [1, 3] [2, 4] 5).getD ([1, 3] : List ℚ).length 0 =
        ([1, 3] : List ℚ).getD (([1, 3] : List ℚ).length - 1) 0 +
          ([2, 4] : List ℚ).getD (([1, 3] : List ℚ).length - 1) 0 / 2 - 5) :=
  ⟨by decide, by decide,
    c7_bin_geometry.2.2.1 [1, 3] [2, 4] 5 (by decide) (by decide)⟩

/-! ### Claim C6: boundary clamping and discarding -/

/-- Helper: two calls that agree on everything up to the normalised trip list
return the same result. -/
theorem run_congr (times : List ℚ) (dt : Option (ℚ ⊕ List ℚ))
    (gti : Option (List (ℚ × ℚ))) (ev1 pr1 ev2 pr2 : List ℚ)
    (h1 : ev1.length = pr1.length) (h2 : ev2.length = pr2.length)
    (hne1 : ev1 ≠ []) (hne2 : ev2 ≠ [])
    (hhead : ev1.headD 0 = ev2.headD 0)
    (hnorm : normTrips (tbinsOf times (resolveDt times dt) (ev1.headD 0))
        (keptTrips (tbinsOf times (resolveDt times dt) (ev1.headD 0))
          (initTrips ev1 pr1 (ev1.headD 0))) =
      normTrips (tbinsOf times (resolveDt times dt) (ev2.headD 0))
        (keptTrips (tbinsOf times (resolveDt times dt) (ev2.headD 0))
          (initTrips ev2 pr2 (ev2.headD 0)))) :
    get_livetime_per_bin times ev1 pr1 dt gti =
      get_livetime_per_bin times ev2 pr2 dt gti := by
  rw [get_livetime_per_bin, get_livetime_per_bin]
  rw [if_neg (show ¬(ev1.length ≠ pr1.length) by omega)]
  rw [if_neg (show ¬(ev2.length ≠ pr2.length) by omega)]
  rw [if_neg hne1, if_neg hne2]
  rcases eq_or_ne times [] with ht | ht
  · rw [if_pos ht, if_pos ht]
  rw [if_neg ht, if_neg ht]
  by_cases hdta : (resolveDt times dt).length ≠ times.length
  · rw [if_pos hdta, if_pos hdta]
  rw [if_neg hdta, if_neg hdta]
  dsimp only
  rw [hhead] at hnorm ⊢
  rw [hnorm]

/-- Helper: head with default ignores an appended tail when the front is
nonempty. -/
theorem headD_append_left (l l2 : List ℚ) (d : ℚ) (h : l ≠ []) :
    (l ++ l2).headD d = l.headD d := by
  cases l with
  | nil => cases h rfl
  | cons a t => rfl

/-- C6: boundary handling.  Part one: a single event whose livetime start
precedes the first border while the event is inside the axis is processed
exactly as if its prior had been shrunk so that the livetime start sits at
`first border + 1e-9` (all borders here are expressed in the frame shifted by
`events[0]`, so the first border is `tbinsOf(...).headD 0` and the event time
is `0`).  Part two: an event (the second of two) whose interval extends past
the last border is processed exactly as if the event time were pulled to
`last border - 1e-9` with the prior shrunk accordingly.  Part three: an
appended event whose interval lies entirely at or before the first border, or
whose livetime start lies at or after the last border, is dropped by the
filter and contributes nothing: the result equals the run without it. -/
theorem c6_boundary_handling :
    (∀ (times : List ℚ) (dt : Option (ℚ ⊕ List ℚ)) (gti : Option (List (ℚ × ℚ)))
        (ev pr : ℚ),
      -pr < (tbinsOf times (resolveDt times dt) ev).headD 0 →
      (tbinsOf times (resolveDt times dt) ev).headD 0 < 0 →
      (0 : ℚ) ≤ (tbinsOf times (resolveDt times dt) ev).getLastD 0 →
      (tbinsOf times (resolveDt times dt) ev).headD 0 + EPS <
        (tbinsOf times (resolveDt times dt) ev).getLastD 0 →
      get_livetime_per_bin times [ev] [pr] dt gti =
        get_livetime_per_bin times [ev]
          [-((tbinsOf times (resolveDt times dt) ev).headD 0) - EPS] dt gti) ∧
    (∀ (times : List ℚ) (dt : Option (ℚ ⊕ List ℚ)) (gti : Option (List (ℚ × ℚ)))
        (e1 p1 ev pr : ℚ),
      (tbinsOf times (resolveDt times dt) e1).headD 0 ≤ ev - e1 - pr →
      ev - e1 - pr < (tbinsOf times (resolveDt times dt) e1).getLastD 0 →
      (tbinsOf times (resolveDt times dt) e1).getLastD 0 < ev - e1 →
      (tbinsOf times (resolveDt times dt) e1).headD 0 + EPS <
        (tbinsOf times (resolveDt times dt) e1).getLastD 0 →
      get_livetime_per_bin times [e1, ev] [p1, pr] dt gti =
        get_livetime_per_bin times
          [e1, e1 + (tbinsOf times (resolveDt times dt) e1).getLastD 0 - EPS]
          [p1, (tbinsOf times (resolveDt times dt) e1).getLastD 0 - EPS -
            (ev - e1 - pr)] dt gti) ∧
    (∀ (times : List ℚ) (dt : Option (ℚ ⊕ List ℚ)) (gti : Option (List (ℚ × ℚ)))
        (events priors : List ℚ) (evB prB : ℚ),
      events ≠ [] →
      (evB - events.headD 0 ≤
          (tbinsOf times (resolveDt times dt) (events.headD 0)).headD 0 ∨
        (tbinsOf times (resolveDt times dt) (events.headD 0)).getLastD 0 ≤
          evB - events.headD 0 - prB) →
      get_livetime_per_bin times (events ++ [evB]) (priors ++ [prB]) dt gti =
        get_livetime_per_bin times events priors dt gti) := by
  have hEPS : (0 : ℚ) < EPS := by norm_num [EPS]
  refine ⟨?_, ?_, ?_⟩
  · -- start clamp, single event
    intro times dt gti ev pr hpb h0 hlast hax
    set T := tbinsOf times (resolveDt times dt) ev with hT
    apply run_congr times dt gti [ev] [pr] [ev] [-(T.headD 0) - EPS]
      rfl rfl (by simp) (by simp) rfl
    have hhd : ([ev] : List ℚ).headD 0 = ev := rfl
    rw [hhd, ← hT]
    have hinit1 : initTrips [ev] [pr] ev = [Trip.mk 0 pr (0 - pr)] := by
      simp [initTrips]
    have hinit2 : initTrips [ev] [-(T.headD 0) - EPS] ev =
        [Trip.mk 0 (-(T.headD 0) - EPS) (0 - (-(T.headD 0) - EPS))] := by
      simp [initTrips]
    rw [hinit1, hinit2]
    have htrip2 : Trip.mk 0 (-(T.headD 0) - EPS) (0 - (-(T.headD 0) - EPS)) =
        Trip.mk 0 (-(T.headD 0) - EPS) (T.headD 0 + EPS) := by
      congr 1
      ring
    rw [htrip2]
    have hk1 : keptTrips T [Trip.mk 0 pr (0 - pr)] = [Trip.mk 0 pr (0 - pr)] := by
      simp only [keptTrips, List.filter_cons, List.filter_nil]
      rw [if_pos]
      simp only [Bool.and_eq_true, decide_eq_true_eq]
      exact ⟨h0, by simp only [zero_sub]; linarith⟩
    have hk2 : keptTrips T [Trip.mk 0 (-(T.headD 0) - EPS) (T.headD 0 + EPS)] =
        [Trip.mk 0 (-(T.headD 0) - EPS) (T.headD 0 + EPS)] := by
      simp only [keptTrips, List.filter_cons, List.filter_nil]
      rw [if_pos]
      simp only [Bool.and_eq_true, decide_eq_true_eq]
      exact ⟨h0, hax⟩
    rw [hk1, hk2]
    simp only [normTrips, List.map_cons, List.map_nil]
    have hs1 : normStart (T.headD 0) (Trip.mk 0 pr (0 - pr)) =
        Trip.mk 0 (0 - (T.headD 0 + EPS)) (T.headD 0 + EPS) := by
      rw [normStart, if_pos]
      exact ⟨by simp only [zero_sub]; exact hpb, h0⟩
    have hs2 : normStart (T.headD 0)
          (Trip.mk 0 (-(T.headD 0) - EPS) (T.headD 0 + EPS)) =
        Trip.mk 0 (-(T.headD 0) - EPS) (T.headD 0 + EPS) := by
      rw [normStart, if_neg]
      intro hcon
      have := hcon.1
      simp only at this
      linarith
    rw [hs1, hs2]
    have : Trip.mk 0 (0 - (T.headD 0 + EPS)) (T.headD 0 + EPS) =
        Trip.mk 0 (-(T.headD 0) - EPS) (T.headD 0 + EPS) := by
      congr 1
      ring
    rw [this]
  · -- end clamp, second of two events
    intro times dt gti e1 p1 ev pr hlo hhi hev hax
    set T := tbinsOf times (resolveDt times dt) e1 with hT
    apply run_congr times dt gti [e1, ev] [p1, pr]
      [e1, e1 + T.getLastD 0 - EPS] [p1, T.getLastD 0 - EPS - (ev - e1 - pr)]
      rfl rfl (by simp) (by simp) rfl
    have hhd : ([e1, ev] : List ℚ).headD 0 = e1 := rfl
    have hhd2 : ([e1, e1 + T.getLastD 0 - EPS] : List ℚ).headD 0 = e1 := rfl
    rw [hhd, hhd2, ← hT]
    have hinit1 : initTrips [e1, ev] [p1, pr] e1 =
        [Trip.mk (e1 - e1) p1 (e1 - e1 - p1), Trip.mk (ev - e1) pr (ev - e1 - pr)] := by
      simp [initTrips]
    have hinit2 : initTrips [e1, e1 + T.getLastD 0 - EPS]
          [p1, T.getLastD 0 - EPS - (ev - e1 - pr)] e1 =
        [Trip.mk (e1 - e1) p1 (e1 - e1 - p1),
          Trip.mk (T.getLastD 0 - EPS) (T.getLastD 0 - EPS - (ev - e1 - pr))
            (ev - e1 - pr)] := by
      simp only [initTrips, List.zipWith]
      congr 1
      congr 1
      simp only [Trip.mk.injEq]
      refine ⟨by ring, by ring, by ring⟩
    rw [hinit1, hinit2]
    simp only [keptTrips, List.filter_cons, List.filter_nil, normTrips]
    have hc1 : (decide (T.headD 0 < (Trip.mk (ev - e1) pr (ev - e1 - pr)).ev) &&
        decide ((Trip.mk (ev - e1) pr (ev - e1 - pr)).lts < T.getLastD 0)) = true := by
      simp only [Bool.and_eq_true, decide_eq_true_eq]
      exact ⟨by linarith, hhi⟩
    have hc2 : (decide (T.headD 0 <
          (Trip.mk (T.getLastD 0 - EPS) (T.getLastD 0 - EPS - (ev - e1 - pr))
            (ev - e1 - pr)).ev) &&
        decide ((Trip.mk (T.getLastD 0 - EPS) (T.getLastD 0 - EPS - (ev - e1 - pr))
            (ev - e1 - pr)).lts < T.getLastD 0)) = true := by
      simp only [Bool.and_eq_true, decide_eq_true_eq]
      exact ⟨by linarith, hhi⟩
    rw [hc1, hc2]
    have hn1 : normEnd (T.getLastD 0)
          (normStart (T.headD 0) (Trip.mk (ev - e1) pr (ev - e1 - pr))) =
        Trip.mk (T.getLastD 0 - EPS) (T.getLastD 0 - EPS - (ev - e1 - pr))
          (ev - e1 - pr) := by
      have hns : normStart (T.headD 0) (Trip.mk (ev - e1) pr (ev - e1 - pr)) =
          Trip.mk (ev - e1) pr (ev - e1 - pr) := by
        rw [normStart, if_neg]
        intro hcon
        have := hcon.1
        simp only at this
        linarith
      rw [hns, normEnd, if_pos]
      exact ⟨hhi, hev⟩
    have hn2 : normEnd (T.getLastD 0)
          (normStart (T.headD 0)
            (Trip.mk (T.getLastD 0 - EPS) (T.getLastD 0 - EPS - (ev - e1 - pr))
              (ev - e1 - pr))) =
        Trip.mk (T.getLastD 0 - EPS) (T.getLastD 0 - EPS - (ev - e1 - pr))
          (ev - e1 - pr) := by
      have hns : normStart (T.headD 0)
            (Trip.mk (T.getLastD 0 - EPS) (T.getLastD 0 - EPS - (ev - e1 - pr))
              (ev - e1 - pr)) =
          Trip.mk (T.getLastD 0 - EPS) (T.getLastD 0 - EPS - (ev - e1 - pr))
            (ev - e1 - pr) := by
        rw [normStart, if_neg]
        intro hcon
        have := hcon.1
        simp only at this
        linarith
      rw [hns, normEnd, if_neg]
      intro hcon
      have := hcon.2
      simp only at this
      linarith
    split <;>
      simp only [if_true, List.map_cons, List.map_nil, List.cons.injEq, true_and,
        and_true, hn1, hn2]
  · -- filtered-out events contribute nothing
    intro times dt gti events priors evB prB hne hbad
    by_cases hlen : events.length = priors.length
    · apply run_congr times dt gti (events ++ [evB]) (priors ++ [prB])
        events priors (by simp [hlen]) hlen (by simp) hne
        (headD_append_left events [evB] 0 hne)
      rw [headD_append_left events [evB] 0 hne]
      set e0 := events.headD 0 with he0
      set T := tbinsOf times (resolveDt times dt) e0 with hT
      have hsplit : initTrips (events ++ [evB]) (priors ++ [prB]) e0 =
          initTrips events priors e0 ++
            [Trip.mk (evB - e0) prB (evB - e0 - prB)] := by
        simp only [initTrips]
        rw [List.zipWith_append _ _ _ _ _ hlen]
        rfl
      rw [hsplit]
      simp only [keptTrips, List.filter_append, List.filter_cons, List.filter_nil]
      rw [if_neg]
      · simp [normTrips]
      · simp only [Bool.and_eq_true, decide_eq_true_eq, not_and, not_lt]
        intro hfirst
        rcases hbad with hb1 | hb2
        · exact absurd hfirst (not_lt.mpr hb1)
        · exact hb2
    · rw [get_livetime_per_bin, get_livetime_per_bin]
      rw [if_pos (show (events ++ [evB]).length ≠ (priors ++ [prB]).length by
        simp [hlen]), if_pos hlen]

/-- C6 witness: the three boundary behaviours at concrete inputs on the axis
`times = [0.5, 1.5]`, `dt = 1` (borders `[0, 1, 2]`): a start-clamped single
event at `0.25` with prior `1`; an end-clamped second event at `3` with prior
`2`; and an appended event at `5` (livetime start past the last border) that
changes nothing. -/
theorem c6_witness :
    (get_livetime_per_bin [1/2, 3/2] [1/4] [1] (some (Sum.inl 1)) none =
      get_livetime_per_bin [1/2, 3/2] [1/4]
        [-((tbinsOf [1/2, 3/2] (resolveDt [1/2, 3/2] (some (Sum.inl 1)))
          (1/4)).headD 0) - EPS] (some (Sum.inl 1)) none) ∧
    (get_livetime_per_bin [1/2, 3/2] [1/4, 3] [1/8, 2] (some (Sum.inl 1)) none =
      get_livetime_per_bin [1/2, 3/2]
        [1/4, 1/4 + (tbinsOf [1/2, 3/2] (resolveDt [1/2, 3/2] (some (Sum.inl 1)))
          (1/4)).getLastD 0 - EPS]
        [1/8, (tbinsOf [1/2, 3/2] (resolveDt [1/2, 3/2] (some (Sum.inl 1)))
          (1/4)).getLastD 0 - EPS - (3 - 1/4 - 2)] (some (Sum.inl 1)) none) ∧
    (get_livetime_per_bin [1/2, 3/2] ([1/2] ++ [5]) ([1/3] ++ [1/10])
        (some (Sum.inl 1)) none =
      get_livetime_per_bin [1/2, 3/2] [1/2] [1/3] (some (Sum.inl 1)) none) := by
  refine ⟨c6_boundary_handling.1 [1/2, 3/2] (some (Sum.inl 1)) none (1/4) 1
      ?_ ?_ ?_ ?_,
    c6_boundary_handling.2.1 [1/2, 3/2] (some (Sum.inl 1)) none (1/4) (1/8) 3 2
      ?_ ?_ ?_ ?_,
    c6_boundary_handling.2.2 [1/2, 3/2] (some (Sum.inl 1)) none [1/2] [1/3]
      5 (1/10) ?_ ?_⟩ <;>
    norm_num [tbinsOf, resolveDt, EPS, List.zipWith, List.replicate, List.headD,
      List.getLastD, List.getLast?, List.head?, Option.getD, List.map,
      List.append]

/-! ### Uniform axes and the rank view of `searchsorted` -/

/-- A uniform grid of `m` points starting at `a` with step `dt`; used to state
the claims that presuppose a contiguous uniform-width axis. -/
def uniformGrid (a dt : ℚ) (m : ℕ) : List ℚ :=
  (List.range m).map (fun (i : ℕ) => a + (i : ℚ) * dt)

theorem uniformGrid_length (a dt : ℚ) (m : ℕ) : (uniformGrid a dt m).length = m := by
  rw [uniformGrid, List.length_map, List.length_range]

theorem uniformGrid_ne_nil (a dt : ℚ) (m : ℕ) (h : 0 < m) : uniformGrid a dt m ≠ [] := by
  intro hc
  have := congrArg List.length hc
  simp [uniformGrid_length] at this
  omega

theorem uniformGrid_getD (a dt : ℚ) (m i : ℕ) (h : i < m) :
    (uniformGrid a dt m).getD i 0 = a + (i : ℚ) * dt := by
  have hl : i < (uniformGrid a dt m).length := by rw [uniformGrid_length]; exact h
  rw [List.getD_eq_getElem _ _ hl]
  simp only [uniformGrid, List.getElem_map, List.getElem_range]

theorem uniformGrid_succ_concat (a dt : ℚ) (m : ℕ) :
    uniformGrid a dt (m + 1) = uniformGrid a dt m ++ [a + (m : ℚ) * dt] := by
  simp [uniformGrid, List.range_succ]

theorem uniformGrid_dropLast (a dt : ℚ) (m : ℕ) :
    (uniformGrid a dt (m + 1)).dropLast = uniformGrid a dt m := by
  rw [uniformGrid_succ_concat, List.dropLast_concat]

theorem uniformGrid_headD (a dt : ℚ) (m : ℕ) (h : 0 < m) :
    (uniformGrid a dt m).headD 0 = a := by
  cases m with
  | zero => omega
  | succ m2 =>
    rw [uniformGrid, List.range_succ_eq_map, List.map_cons]
    simp

theorem uniformGrid_getLastD (a dt : ℚ) (m : ℕ) (h : 0 < m) :
    (uniformGrid a dt m).getLastD 0 = a + ((m - 1 : ℕ) : ℚ) * dt := by
  cases m with
  | zero => omega
  | succ m2 =>
    rw [uniformGrid_succ_concat, List.getLastD_concat]
    simp

theorem uniformGrid_pairwise (a dt : ℚ) (m : ℕ) (h : 0 < dt) :
    List.Pairwise (· < ·) (uniformGrid a dt m) := by
  unfold uniformGrid
  rw [List.pairwise_map]
  refine List.Pairwise.imp ?_ (List.pairwise_lt_range m)
  intro i j hij
  have h2 : (i : ℚ) < (j : ℚ) := by exact_mod_cast hij
  nlinarith

/-- The `np.histogram` monotonicity check passes on any sorted edge list. -/
theorem monotoneB_of_pairwise (l : List ℚ) (h : List.Pairwise (· ≤ ·) l) :
    monotoneB l = true := by
  induction l with
  | nil => rfl
  | cons a t ih =>
    cases t with
    | nil => rfl
    | cons b t2 =>
      rw [monotoneB]
      have hab : a ≤ b := (List.pairwise_cons.1 h).1 b (by simp)
      have ht : monotoneB (b :: t2) = true := ih (List.pairwise_cons.1 h).2
      simp [hab, ht]

theorem ssRight_le_length (a : List ℚ) (v : ℚ) : ssRight a v ≤ a.length :=
  List.length_filter_le _ _

theorem ssRight_mono (a : List ℚ) (v w : ℚ) (h : v ≤ w) :
    ssRight a v ≤ ssRight a w := by
  induction a with
  | nil => simp [ssRight]
  | cons x t ih =>
    by_cases hx : x ≤ v
    · have hw : x ≤ w := hx.trans h
      simp only [ssRight, List.filter_cons, decide_eq_true_eq] at *
      rw [if_pos (by simpa using hx), if_pos (by simpa using hw)]
      simpa using ih
    · simp only [ssRight, List.filter_cons] at *
      rw [if_neg (by simpa using hx)]
      split
      · exact le_trans ih (by simp)
      · exact ih

/-- The rank characterisation of `searchsorted`-right on a strictly sorted key
list: position `i` is below the insertion point exactly when its key is `≤ v`. -/
theorem ssRight_rank_iff (a : List ℚ) (v : ℚ) (hs : List.Pairwise (· < ·) a)
    (i : ℕ) (hi : i < a.length) :
    a.getD i 0 ≤ v ↔ i < ssRight a v := by
  induction a generalizing i with
  | nil => simp at hi
  | cons x t ih =>
    have hxt : ∀ y ∈ t, x < y := fun y hy => (List.pairwise_cons.1 hs).1 y hy
    have hts : List.Pairwise (· < ·) t := (List.pairwise_cons.1 hs).2
    by_cases hx : x ≤ v
    · have hcount : ssRight (x :: t) v = ssRight t v + 1 := by
        simp only [ssRight, List.filter_cons]
        rw [if_pos (by simpa using hx)]
        simp [Nat.add_comm]
      rw [hcount]
      cases i with
      | zero => simpa using hx
      | succ j =>
        have hj : j < t.length := by simpa using hi
        have := ih hts j hj
        simpa [Nat.succ_lt_succ_iff] using this
    · have hnone : ssRight (x :: t) v = 0 := by
        simp only [ssRight, List.filter_cons]
        rw [if_neg (by simpa using hx)]
        have : t.filter (fun y => decide (y ≤ v)) = [] := by
          rw [List.filter_eq_nil]
          intro y hy
          simp only [decide_eq_true_eq]
          intro hyv
          exact hx (le_trans (le_of_lt (hxt y hy)) hyv)
        simp [this]
      rw [hnone]
      simp only [Nat.not_lt_zero, iff_false]
      cases i with
      | zero => simpa using hx
      | succ j =>
        have hj : j < t.length := by simpa using hi
        intro hc
        have hmem : t.getD j 0 ∈ t := by
          rw [List.getD_eq_getElem _ _ hj]
          exact List.getElem_mem hj
        exact hx (le_trans (le_of_lt (hxt _ hmem)) hc)

theorem ssRight_lb (a : List ℚ) (v : ℚ) (hs : List.Pairwise (· < ·) a)
    (h1 : 1 ≤ ssRight a v) : a.getD (ssRight a v - 1) 0 ≤ v := by
  have hlt : ssRight a v - 1 < a.length := by
    have := ssRight_le_length a v
    omega
  exact (ssRight_rank_iff a v hs _ hlt).2 (by omega)

theorem ssRight_ub (a : List ℚ) (v : ℚ) (hs : List.Pairwise (· < ·) a)
    (h : ssRight a v < a.length) : v < a.getD (ssRight a v) 0 := by
  by_contra hc
  push_neg at hc
  have := (ssRight_rank_iff a v hs _ h).1 hc
  omega

theorem ssRight_pos (a : List ℚ) (v : ℚ) (hs : List.Pairwise (· < ·) a)
    (hne : a ≠ []) (h : a.headD 0 ≤ v) : 1 ≤ ssRight a v := by
  have h0 : 0 < a.length := by
    cases a with
    | nil => cases hne rfl
    | cons x t => simp
  have hh : a.getD 0 0 = a.headD 0 := by
    cases a with
    | nil => cases hne rfl
    | cons x t => rfl
  exact (ssRight_rank_iff a v hs 0 h0).1 (by rw [hh]; exact h)

/-! ### More list helpers for the uniform-axis analysis -/

theorem zipWith_replicate_right (g : ℚ → ℚ → ℚ) (c : ℚ) :
    ∀ l : List ℚ, List.zipWith g l (List.replicate l.length c) = l.map (fun x => g x c)
  | [] => rfl
  | x :: t => by
    simp only [List.length_cons, List.replicate_succ, List.zipWith_cons_cons,
      List.map_cons]
    rw [zipWith_replicate_right g c t]

theorem getLastD_replicate (c : ℚ) (n : ℕ) (h : 0 < n) :
    (List.replicate n c).getLastD 0 = c := by
  cases n with
  | zero => omega
  | succ m =>
    rw [List.replicate_succ']
    rw [List.getLastD_concat]

theorem ssRight_append (l1 l2 : List ℚ) (v : ℚ) :
    ssRight (l1 ++ l2) v = ssRight l1 v + ssRight l2 v := by
  simp [ssRight, List.filter_append]

/-- The borders produced for a contiguous uniform axis form a uniform grid of
`N + 1` edges starting half a width before the first bin centre. -/
theorem tbins_uniform (t0 dtv e0 : ℚ) (N : ℕ) (hN : 1 ≤ N) :
    tbinsOf (uniformGrid t0 dtv N) (List.replicate N dtv) e0 =
      uniformGrid (t0 - dtv / 2 - e0) dtv (N + 1) := by
  rw [tbinsOf]
  rw [show List.replicate N dtv = List.replicate (uniformGrid t0 dtv N).length dtv by
    rw [uniformGrid_length]]
  rw [zipWith_replicate_right]
  rw [uniformGrid_length, uniformGrid_getLastD _ _ _ (by omega),
    getLastD_replicate _ _ (by omega)]
  rw [uniformGrid_succ_concat, List.map_append]
  unfold uniformGrid
  rw [List.map_map, List.map_map]
  congr 1
  · congr 1
    funext i
    simp only [Function.comp_apply]
    ring
  · simp only [List.map_cons, List.map_nil, List.cons.injEq, and_true]
    have hc : ((N - 1 : ℕ) : ℚ) = (N : ℚ) - 1 := by
      have : (1 : ℕ) ≤ N := hN
      push_cast [this]
      ring
    rw [hc]
    ring

theorem map_const_zero (n : ℕ) :
    (List.range n).map (fun _ => (0 : ℚ)) = List.replicate n 0 := by
  induction n with
  | zero => rfl
  | succ m ih =>
    rw [List.range_succ, List.map_append, ih, List.replicate_succ']
    rfl

theorem sum_indicator_ge (E : ℕ) (w : ℚ) :
    ∀ n : ℕ, n ≤ E → ((List.range n).map (fun i => if E = i then w else 0)).sum = 0 := by
  intro n
  induction n with
  | zero => intro _; rfl
  | succ m ih =>
    intro h
    rw [List.range_succ, List.map_append, List.sum_append, ih (by omega)]
    simp only [List.map_cons, List.map_nil, List.sum_cons, List.sum_nil]
    rw [if_neg (by omega)]
    ring

theorem sum_indicator_lt (E : ℕ) (w : ℚ) :
    ∀ n : ℕ, E < n → ((List.range n).map (fun i => if E = i then w else 0)).sum = w := by
  intro n
  induction n with
  | zero => omega
  | succ m ih =>
    intro h
    rw [List.range_succ, List.map_append, List.sum_append]
    by_cases hEm : E = m
    · subst hEm
      rw [sum_indicator_ge E w E le_rfl]
      simp
    · rw [ih (by omega)]
      simp only [List.map_cons, List.map_nil, List.sum_cons, List.sum_nil]
      rw [if_neg hEm]
      ring

theorem indicator_eq_set_replicate (w : ℚ) :
    ∀ (n E : ℕ), E < n →
      (List.range n).map (fun i => if E = i then w else 0) =
        (List.replicate n 0).set E w := by
  intro n
  induction n with
  | zero => intro E h; omega
  | succ m ih =>
    intro E h
    rw [List.range_succ_eq_map, List.replicate_succ]
    cases E with
    | zero =>
      simp only [List.map_cons, List.map_map, List.set, if_true]
      congr 1
      exact map_const_zero m
    | succ E2 =>
      simp only [List.map_cons, List.map_map, List.set]
      rw [if_neg (by omega)]
      congr 1
      calc (List.range m).map ((fun i => if E2 + 1 = i then w else 0) ∘ Nat.succ)
          = (List.range m).map (fun i => if E2 = i then w else 0) := by
            congr 1
            funext i
            simp only [Function.comp_apply]
            by_cases hE : E2 = i
            · rw [if_pos (by omega), if_pos hE]
            · rw [if_neg (by omega), if_neg hE]
        _ = (List.replicate m 0).set E2 w := ih E2 (by omega)

theorem zipWith_zero_add : ∀ (l : List ℚ) (n : ℕ), l.length = n →
    List.zipWith (· + ·) (List.replicate n 0) l = l
  | [], _, h => by subst h; rfl
  | x :: t, n, h => by
    cases n with
    | zero => simp at h
    | succ m =>
      rw [List.replicate_succ, List.zipWith_cons_cons, zero_add,
        zipWith_zero_add t m (by simpa using h)]

theorem sum_set_q : ∀ (l : List ℚ) (j : ℕ) (x : ℚ), j < l.length →
    (l.set j x).sum = l.sum - l.getD j 0 + x
  | [], j, x, h => by simp at h
  | a :: t, 0, x, _ => by
    simp only [List.set, List.sum_cons, List.getD]
    simp
    ring
  | a :: t, j + 1, x, h => by
    simp only [List.set, List.sum_cons]
    rw [sum_set_q t j x (by simpa using h)]
    have : (a :: t).getD (j + 1) 0 = t.getD j 0 := rfl
    rw [this]
    ring

theorem getD_set_q (l : List ℚ) (j k : ℕ) (x : ℚ) (hk : k < l.length) :
    (l.set j x).getD k 0 = if j = k then x else l.getD k 0 := by
  have hk2 : k < (l.set j x).length := by
    rw [List.length_set]
    exact hk
  rw [List.getD_eq_getElem _ _ hk2, List.getD_eq_getElem _ _ hk]
  rw [List.getElem_set]

theorem length_set_q (l : List ℚ) (j : ℕ) (x : ℚ) :
    (l.set j x).length = l.length := List.length_set l j x

/-! ### Evaluation lemmas for the accumulation stages -/

theorem except_bind_ok {α β : Type} (x : α) (f : α → Except ExpoErr β) :
    (do let y ← Except.ok x; f y) = f x := rfl

theorem npIdx_of_range (n : ℕ) (j : ℤ) (h0 : 0 ≤ j) (h1 : j < (n : ℤ)) :
    npIdx n j = some j.toNat := by
  rw [npIdx, if_pos ⟨h0, h1⟩]

theorem npGetQ_of_range (a : List ℚ) (i : ℤ) (h0 : 0 ≤ i)
    (h1 : i < (a.length : ℤ)) : npGetQ a i = .ok (a.getD i.toNat 0) := by
  rw [npGetQ, npIdx_of_range _ _ h0 h1]

theorem scatterAdd_nil (arr : List ℚ) (vals : List ℚ) :
    scatterAdd arr [] vals = .ok arr := rfl

theorem gatherAdds_one (arr : List ℚ) (j : ℤ) (v : ℚ)
    (h0 : 0 ≤ j) (h1 : j < (arr.length : ℤ)) :
    gatherAdds arr [(j, v)] = .ok [(j.toNat, arr.getD j.toNat 0 + v)] := by
  rw [gatherAdds, npIdx_of_range _ _ h0 h1]
  rfl

theorem scatterAdd_one (arr : List ℚ) (j : ℤ) (v : ℚ)
    (h0 : 0 ≤ j) (h1 : j < (arr.length : ℤ)) :
    scatterAdd arr [j] [v] = .ok (arr.set j.toNat (arr.getD j.toNat 0 + v)) := by
  rw [scatterAdd]
  rw [show ([j].zip [v]) = [(j, v)] from rfl]
  rw [gatherAdds_one _ _ _ h0 h1, except_bind_ok]
  rfl

theorem gatherQ_nil (a : List ℚ) : gatherQ a [] = .ok [] := rfl

theorem gatherQ_one (a : List ℚ) (i : ℤ) (h0 : 0 ≤ i)
    (h1 : i < (a.length : ℤ)) : gatherQ a [i] = .ok [a.getD i.toNat 0] := by
  rw [gatherQ, npGetQ_of_range _ _ h0 h1, except_bind_ok, gatherQ_nil,
    except_bind_ok]

theorem innerFill_nil (dtA : List ℚ) :
    ∀ (rem i : ℕ) (arr : List ℚ), innerFill dtA [] i rem arr = .ok arr := by
  intro rem
  induction rem with
  | zero => intro i arr; rfl
  | succ m ih =>
    intro i arr
    rw [innerFill]
    rw [show (([] : List ℤ).map (· + (i : ℤ))) = [] from rfl]
    rw [gatherQ_nil, except_bind_ok, scatterAdd_nil, except_bind_ok]
    exact ih (i + 1) arr

/-- Full evaluation of the interior-bin loop for a single spanning event. -/
theorem innerFill_one (N : ℕ) (dtv : ℚ) (L : ℤ) :
    ∀ (rem i : ℕ) (arr : List ℚ), arr.length = N →
    (∀ k : ℕ, i ≤ k → k < i + rem → 0 ≤ L + k ∧ L + k < (N : ℤ)) →
    ∃ out, innerFill (List.replicate N dtv) [L] i rem arr = .ok out ∧
      out.length = N ∧
      out.sum = arr.sum + rem * dtv ∧
      (∀ j : ℕ, j < N →
        out.getD j 0 =
          if L + i ≤ (j : ℤ) ∧ (j : ℤ) < L + i + rem
          then arr.getD j 0 + dtv else arr.getD j 0) := by
  intro rem
  induction rem with
  | zero =>
    intro i arr hlen hrange
    refine ⟨arr, rfl, hlen, by push_cast; ring, ?_⟩
    intro j hj
    rw [if_neg (by push_cast; omega)]
  | succ m ih =>
    intro i arr hlen hrange
    have hp := hrange i le_rfl (by omega)
    have hlenz : (List.replicate N dtv).length = N := List.length_replicate N dtv
    have hgd : (List.replicate N dtv).getD (L + (i : ℤ)).toNat 0 = dtv := by
      have hlt : (L + (i : ℤ)).toNat < N := by omega
      rw [List.getD_eq_getElem _ _ (by rw [hlenz]; exact hlt)]
      exact List.getElem_replicate _ _
    set arr1 := arr.set (L + (i : ℤ)).toNat (arr.getD (L + (i : ℤ)).toNat 0 + dtv)
      with harr1
    have hstep : innerFill (List.replicate N dtv) [L] i (m + 1) arr =
        innerFill (List.replicate N dtv) [L] (i + 1) m arr1 := by
      rw [innerFill]
      rw [show (([L] : List ℤ).map (· + (i : ℤ))) = [L + (i : ℤ)] from rfl]
      rw [gatherQ_one _ _ (by omega) (by rw [hlenz]; omega), except_bind_ok, hgd]
      rw [scatterAdd_one arr _ _ (by omega) (by rw [hlen]; omega), except_bind_ok]
    have hlen1 : arr1.length = N := by rw [harr1, length_set_q, hlen]
    have hsum1 : arr1.sum = arr.sum + dtv := by
      rw [harr1, sum_set_q _ _ _ (by rw [hlen]; omega)]
      ring
    have hget1 : ∀ j : ℕ, j < N →
        arr1.getD j 0 =
          if (j : ℤ) = L + i then arr.getD j 0 + dtv else arr.getD j 0 := by
      intro j hj
      rw [harr1, getD_set_q _ _ _ _ (by rw [hlen]; exact hj)]
      by_cases hjp : (j : ℤ) = L + i
      · rw [if_pos (by omega), if_pos hjp]
        have he : (L + (i : ℤ)).toNat = j := by omega
        rw [he]
      · rw [if_neg (by omega), if_neg hjp]
    obtain ⟨out, hrun, holen, hosum, hoget⟩ := ih (i + 1) arr1 hlen1
      (fun k hk1 hk2 => hrange k (by omega) (by omega))
    refine ⟨out, by rw [hstep]; exact hrun, holen, ?_, ?_⟩
    · rw [hosum, hsum1]
      push_cast
      ring
    · intro j hj
      rw [hoget j hj, hget1 j hj]
      split_ifs <;> first | rfl | omega

theorem passBody_empty (ts dtA : List ℚ) (trips : List Trip) (b : ℕ)
    (arr : List ℚ)
    (h : trips.filter
      (fun t => decide (evBinOf ts t = ltsBinOf ts t + (b : ℤ))) = []) :
    passBody ts dtA trips b arr = .ok arr := by
  rw [passBody, h]
  simp only [List.map_nil, gatherQ_nil, except_bind_ok, List.zipWith_nil_left,
    List.zipWith_nil_right, scatterAdd_nil, List.all_nil, if_true,
    innerFill_nil]

/-- Full evaluation of one span-loop pass on a single event whose bin span is
exactly `b`. -/
theorem passBody_single (ts : List ℚ) (N : ℕ) (dtv : ℚ) (t : Trip) (b : ℕ)
    (arr : List ℚ)
    (htsN : ts.length = N) (harrN : arr.length = N) (hb : 1 ≤ b)
    (hd : evBinOf ts t = ltsBinOf ts t + (b : ℤ))
    (hL0 : 0 ≤ ltsBinOf ts t)
    (hEN : evBinOf ts t < (N : ℤ))
    (hterm : ts.getD (evBinOf ts t).toNat 0 ≤ t.ev)
    (hinit : t.lts ≤ ts.getD (ssRight ts t.lts) 0) :
    ∃ out, passBody ts (List.replicate N dtv) [t] b arr = .ok out ∧
      out.length = N ∧
      out.sum = arr.sum + (t.ev - ts.getD (evBinOf ts t).toNat 0) +
        (ts.getD (ssRight ts t.lts) 0 - t.lts) + ((b : ℚ) - 1) * dtv ∧
      (∀ j : ℕ, j < N →
        out.getD j 0 = arr.getD j 0 +
          (if (j : ℤ) = evBinOf ts t
            then t.ev - ts.getD (evBinOf ts t).toNat 0 else 0) +
          (if (j : ℤ) = ltsBinOf ts t
            then ts.getD (ssRight ts t.lts) 0 - t.lts else 0) +
          (if ltsBinOf ts t < (j : ℤ) ∧ (j : ℤ) < evBinOf ts t
            then dtv else 0)) := by
  have hE0 : 0 ≤ evBinOf ts t := by omega
  have hr1 : (1 : ℤ) ≤ (ssRight ts t.lts : ℤ) := by
    have : ltsBinOf ts t = (ssRight ts t.lts : ℤ) - 1 := rfl
    omega
  have hrN : (ssRight ts t.lts : ℤ) < (N : ℤ) := by
    have h1 : ltsBinOf ts t = (ssRight ts t.lts : ℤ) - 1 := rfl
    omega
  have hfil : ([t].filter
      (fun x => decide (evBinOf ts x = ltsBinOf ts x + (b : ℤ)))) = [t] := by
    rw [List.filter_cons, if_pos (by simpa using hd), List.filter_nil]
  rw [passBody, hfil]
  dsimp only
  have hmape : ([t].map (fun x => (ssRight ts x.ev : ℤ) - 1)) = [evBinOf ts t] := rfl
  rw [hmape]
  rw [gatherQ_one _ _ hE0 (by rw [htsN]; exact hEN), except_bind_ok]
  have hmape2 : ([t].map (evBinOf ts)) = [evBinOf ts t] := rfl
  have hzip1 : (List.zipWith (fun x y => x.ev - y) [t]
      [ts.getD (evBinOf ts t).toNat 0]) = [t.ev - ts.getD (evBinOf ts t).toNat 0] := rfl
  rw [hmape2, hzip1, scatterAdd_one arr _ _ hE0 (by rw [harrN]; exact hEN),
    except_bind_ok]
  set term := t.ev - ts.getD (evBinOf ts t).toNat 0 with hterm_def
  set arr1 := arr.set (evBinOf ts t).toNat (arr.getD (evBinOf ts t).toNat 0 + term)
    with harr1
  rw [if_pos (show (([term] : List ℚ).all fun v => decide (0 ≤ v)) = true by
    simp only [List.all_cons, List.all_nil, Bool.and_true, decide_eq_true_eq]
    rw [hterm_def]
    linarith)]
  have hmapl : ([t].map (fun x => (ssRight ts x.lts : ℤ))) = [(ssRight ts t.lts : ℤ)] := rfl
  rw [hmapl, gatherQ_one _ _ (by omega) (by rw [htsN]; exact hrN), except_bind_ok]
  have htn : ((ssRight ts t.lts : ℤ)).toNat = ssRight ts t.lts := Int.toNat_natCast _
  rw [htn]
  have hmapl2 : ([t].map (ltsBinOf ts)) = [ltsBinOf ts t] := rfl
  have hzip2 : (List.zipWith (fun x y => x - y.lts) [ts.getD (ssRight ts t.lts) 0]
      [t]) = [ts.getD (ssRight ts t.lts) 0 - t.lts] := rfl
  rw [hmapl2, hzip2,
    scatterAdd_one arr1 _ _ hL0 (by rw [harr1, length_set_q, harrN]; omega),
    except_bind_ok]
  set init := ts.getD (ssRight ts t.lts) 0 - t.lts with hinit_def
  set arr2 := arr1.set (ltsBinOf ts t).toNat (arr1.getD (ltsBinOf ts t).toNat 0 + init)
    with harr2
  rw [if_pos (show (([init] : List ℚ).all fun v => decide (0 ≤ v)) = true by
    simp only [List.all_cons, List.all_nil, Bool.and_true, decide_eq_true_eq]
    rw [hinit_def]
    linarith)]
  have hlen1 : arr1.length = N := by rw [harr1, length_set_q, harrN]
  have hlen2 : arr2.length = N := by rw [harr2, length_set_q, hlen1]
  obtain ⟨out, hrun, holen, hosum, hoget⟩ :=
    innerFill_one N dtv (ltsBinOf ts t) (b - 1) 1 arr2 hlen2
      (fun k hk1 hk2 => ⟨by omega, by omega⟩)
  refine ⟨out, hrun, holen, ?_, ?_⟩
  · rw [hosum]
    have hs2 : arr2.sum = arr1.sum + init := by
      rw [harr2, sum_set_q _ _ _ (by rw [hlen1]; omega)]
      ring
    have hs1 : arr1.sum = arr.sum + term := by
      rw [harr1, sum_set_q _ _ _ (by rw [harrN]; omega)]
      ring
    rw [hs2, hs1]
    have hbq : ((b - 1 : ℕ) : ℚ) = (b : ℚ) - 1 := by
      push_cast [hb]
      ring
    rw [hbq]
    all_goals ring
  · intro j hj
    have hg2 : arr2.getD j 0 = arr1.getD j 0 +
        (if (j : ℤ) = ltsBinOf ts t then init else 0) := by
      rw [harr2, getD_set_q _ _ _ _ (by rw [hlen1]; exact hj)]
      by_cases hc : (j : ℤ) = ltsBinOf ts t
      · rw [if_pos (by omega), if_pos hc]
        have he : (ltsBinOf ts t).toNat = j := by omega
        rw [he]
      · rw [if_neg (by omega), if_neg hc]
        ring
    have hg1 : arr1.getD j 0 = arr.getD j 0 +
        (if (j : ℤ) = evBinOf ts t then term else 0) := by
      rw [harr1, getD_set_q _ _ _ _ (by rw [harrN]; exact hj)]
      by_cases hc : (j : ℤ) = evBinOf ts t
      · rw [if_pos (by omega), if_pos hc]
        have he : (evBinOf ts t).toNat = j := by omega
        rw [he]
      · rw [if_neg (by omega), if_neg hc]
        ring
    rw [hoget j hj, hg2, hg1]
    have hiff : (ltsBinOf ts t + (1 : ℕ) ≤ (j : ℤ) ∧
        (j : ℤ) < ltsBinOf ts t + (1 : ℕ) + ((b - 1 : ℕ) : ℤ)) ↔
        (ltsBinOf ts t < (j : ℤ) ∧ (j : ℤ) < evBinOf ts t) := by
      constructor
      · intro hcc
        push_cast at hcc
        omega
      · intro hcc
        push_cast
        omega
    by_cases hcc : ltsBinOf ts t < (j : ℤ) ∧ (j : ℤ) < evBinOf ts t
    · rw [if_pos (hiff.2 hcc), if_pos hcc]
      all_goals ring
    · rw [if_neg (fun hx => hcc (hiff.1 hx)), if_neg hcc]
      all_goals ring

theorem spanLoop_all_empty (ts dtA : List ℚ) (trips : List Trip) :
    ∀ (fuel : ℕ) (arr : List ℚ),
    (∀ b : ℕ, 1 ≤ b → b ≤ fuel →
      trips.filter (fun t => decide (evBinOf ts t = ltsBinOf ts t + (b : ℤ))) = []) →
    spanLoop ts dtA trips fuel arr = .ok arr := by
  intro fuel
  induction fuel with
  | zero => intro arr _; rfl
  | succ m ih =>
    intro arr hemp
    rw [spanLoop, passBody_empty _ _ _ _ _ (hemp (m + 1) (by omega) le_rfl),
      except_bind_ok]
    exact ih arr (fun b hb1 hb2 => hemp b hb1 (by omega))

theorem spanLoop_single_top (ts dtA : List ℚ) (t : Trip) (b : ℕ) (hb : 1 ≤ b)
    (hd : evBinOf ts t = ltsBinOf ts t + (b : ℤ)) (arr out1 : List ℚ)
    (hpass : passBody ts dtA [t] b arr = .ok out1) :
    spanLoop ts dtA [t] b arr = .ok out1 := by
  cases b with
  | zero => omega
  | succ m =>
    rw [spanLoop, hpass, except_bind_ok]
    refine spanLoop_all_empty ts dtA [t] m out1 ?_
    intro b2 hb1 hb2
    rw [List.filter_cons, if_neg, List.filter_nil]
    simp only [decide_eq_true_eq]
    omega

theorem histogramW_nil (tbins : List ℚ) (hm : monotoneB tbins = true) :
    histogramW tbins [] [] = .ok (List.replicate (tbins.length - 1) 0) := by
  rw [histogramW, if_pos hm]
  congr 1
  rw [show (([] : List ℚ).zip ([] : List ℚ)) = [] from rfl]
  simp only [List.filter_nil, List.foldl_nil]
  exact map_const_zero _

theorem histogramW_single (tbins : List ℚ) (x w : ℚ) (hm : monotoneB tbins = true) :
    histogramW tbins [x] [w] = .ok ((List.range (tbins.length - 1)).map
      (fun i => if histIdx tbins x = some i then w else 0)) := by
  rw [histogramW, if_pos hm]
  congr 1
  rw [show (([x]).zip ([w] : List ℚ)) = [(x, w)] from rfl]
  congr 1
  funext i
  rw [List.filter_cons]
  by_cases hc : histIdx tbins x = some i
  · rw [if_pos (by simpa using hc), if_pos hc, List.filter_nil, List.foldl_cons,
      List.foldl_nil]
    exact zero_add w
  · rw [if_neg (by simpa using hc), if_neg hc, List.filter_nil, List.foldl_nil]

/-- Evaluation of the accumulation stage for one normalised event whose start
and end fall in the same bin: the whole (possibly clamped) prior is
histogrammed into the event's bin, and the span loop does nothing. -/
theorem accumulate_samebin (times : List ℚ) (A dtv : ℚ) (N : ℕ)
    (htN : times.length = N) (hN : 1 ≤ N) (hdt : 0 < dtv) (t' : Trip)
    (hP : evBinOf (uniformGrid A dtv N) t' = ltsBinOf (uniformGrid A dtv N) t') :
    accumulate times (uniformGrid A dtv (N + 1)) (List.replicate N dtv) [t'] =
      .ok ((List.range N).map (fun i =>
        if histIdx (uniformGrid A dtv (N + 1)) t'.ev = some i then t'.pr else 0)) := by
  have hmono : monotoneB (uniformGrid A dtv (N + 1)) = true :=
    monotoneB_of_pairwise _
      ((uniformGrid_pairwise A dtv (N + 1) hdt).imp le_of_lt)
  have hlen1 : (uniformGrid A dtv (N + 1)).length - 1 = N := by
    rw [uniformGrid_length]
    omega
  rw [accumulate]
  dsimp only
  rw [uniformGrid_dropLast]
  rw [List.filter_cons, if_pos (by simpa using hP), List.filter_nil]
  rw [show ([t'].map (fun t => t.ev)) = [t'.ev] from rfl]
  rw [show ([t'].map (fun t => t.pr)) = [t'.pr] from rfl]
  rw [histogramW_single _ _ _ hmono]
  dsimp only
  rw [if_pos (vacuous_all_check _)]
  rw [hlen1]
  have hexpo_len : ((List.range N).map (fun i =>
      if histIdx (uniformGrid A dtv (N + 1)) t'.ev = some i then t'.pr else 0)).length
      = N := by
    rw [List.length_map, List.length_range]
  rw [htN, zipWith_zero_add _ _ hexpo_len]
  rw [show ([t'].map (fun t => evBinOf (uniformGrid A dtv N) t -
      ltsBinOf (uniformGrid A dtv N) t)) =
    [evBinOf (uniformGrid A dtv N) t' - ltsBinOf (uniformGrid A dtv N) t'] from rfl]
  have hz : evBinOf (uniformGrid A dtv N) t' - ltsBinOf (uniformGrid A dtv N) t' = 0 := by
    omega
  rw [hz]
  rfl

/-- Evaluation of the accumulation stage for one normalised event whose start
and end bins differ: the histogram pass contributes nothing and the result is
the span loop run from an all-zero array. -/
theorem accumulate_span (times : List ℚ) (A dtv : ℚ) (N : ℕ)
    (htN : times.length = N) (hN : 1 ≤ N) (hdt : 0 < dtv) (t' : Trip)
    (hP : ¬ (evBinOf (uniformGrid A dtv N) t' = ltsBinOf (uniformGrid A dtv N) t')) :
    accumulate times (uniformGrid A dtv (N + 1)) (List.replicate N dtv) [t'] =
      spanLoop (uniformGrid A dtv N) (List.replicate N dtv) [t']
        (evBinOf (uniformGrid A dtv N) t' -
          ltsBinOf (uniformGrid A dtv N) t').toNat (List.replicate N 0) := by
  have hmono : monotoneB (uniformGrid A dtv (N + 1)) = true :=
    monotoneB_of_pairwise _
      ((uniformGrid_pairwise A dtv (N + 1) hdt).imp le_of_lt)
  have hlen1 : (uniformGrid A dtv (N + 1)).length - 1 = N := by
    rw [uniformGrid_length]
    omega
  rw [accumulate]
  dsimp only
  rw [uniformGrid_dropLast]
  rw [List.filter_cons, if_neg (by simpa using hP), List.filter_nil]
  rw [show (([] : List Trip).map (fun t => t.ev)) = [] from rfl]
  rw [show (([] : List Trip).map (fun t => t.pr)) = [] from rfl]
  rw [histogramW_nil _ hmono]
  dsimp only
  rw [if_pos (vacuous_all_check _)]
  rw [hlen1]
  rw [htN, zipWith_zero_add _ _ (List.length_replicate N (0 : ℚ))]
  rw [show ([t'].map (fun t => evBinOf (uniformGrid A dtv N) t -
      ltsBinOf (uniformGrid A dtv N) t)) =
    [evBinOf (uniformGrid A dtv N) t' - ltsBinOf (uniformGrid A dtv N) t'] from rfl]
  rfl

/-- Reduction of a single-event call on a contiguous uniform axis through the
input guards: it is the accumulation stage applied to the one (filtered,
normalised) trip, over uniform borders. -/
theorem single_run_reduce (t0 dtv ev pr : ℚ) (N : ℕ) (hN : 1 ≤ N)
    (gti : Option (List (ℚ × ℚ))) :
    get_livetime_per_bin (uniformGrid t0 dtv N) [ev] [pr] (some (Sum.inl dtv)) gti =
      accumulate (uniformGrid t0 dtv N) (uniformGrid (t0 - dtv / 2 - ev) dtv (N + 1))
        (List.replicate N dtv)
        (normTrips (uniformGrid (t0 - dtv / 2 - ev) dtv (N + 1))
          (keptTrips (uniformGrid (t0 - dtv / 2 - ev) dtv (N + 1))
            [Trip.mk 0 pr (0 - pr)])) := by
  have hres : resolveDt (uniformGrid t0 dtv N) (some (Sum.inl dtv)) =
      List.replicate N dtv := by
    rw [resolveDt, uniformGrid_length]
  rw [get_livetime_per_bin]
  rw [if_neg (show ¬(([ev] : List ℚ).length ≠ ([pr] : List ℚ).length) by simp)]
  rw [if_neg (show ¬(([ev] : List ℚ) = []) by simp)]
  rw [if_neg (uniformGrid_ne_nil t0 dtv N (by omega))]
  rw [hres]
  rw [if_neg (show ¬((List.replicate N dtv).length ≠ (uniformGrid t0 dtv N).length) by
    rw [List.length_replicate, uniformGrid_length]
    omega)]
  dsimp only
  rw [show (([ev] : List ℚ).headD 0) = ev from rfl]
  rw [tbins_uniform t0 dtv ev N hN]
  rw [show initTrips [ev] [pr] ev = [Trip.mk 0 pr (0 - pr)] by
    rw [initTrips]
    rw [show List.zipWith (fun e p => Trip.mk (e - ev) p (e - ev - p)) [ev] [pr]
      = [Trip.mk (ev - ev) pr (ev - ev - pr)] from rfl]
    rw [sub_self]]

theorem ssRight_uniform_top (A dtv : ℚ) (N : ℕ) (hN : 1 ≤ N) (hdt : 0 < dtv)
    (x : ℚ) (hx : A + (N : ℚ) * dtv ≤ x) :
    ssRight (uniformGrid A dtv N) x = N := by
  have hle : ssRight (uniformGrid A dtv N) x ≤ N := by
    have := ssRight_le_length (uniformGrid A dtv N) x
    rwa [uniformGrid_length] at this
  have hge : N ≤ ssRight (uniformGrid A dtv N) x := by
    by_contra hcon
    push_neg at hcon
    have hlt : ssRight (uniformGrid A dtv N) x < (uniformGrid A dtv N).length := by
      rw [uniformGrid_length]
      exact hcon
    have hub := ssRight_ub (uniformGrid A dtv N) x
      (uniformGrid_pairwise _ _ _ hdt) hlt
    rw [uniformGrid_getD _ _ _ _ hcon] at hub
    have hcast : (ssRight (uniformGrid A dtv N) x : ℚ) ≤ (N : ℚ) - 1 := by
      have h2 : (ssRight (uniformGrid A dtv N) x : ℚ) + 1 ≤ (N : ℚ) := by
        exact_mod_cast hcon
      linarith
    nlinarith
  omega

theorem histIdx_uniform (A dtv : ℚ) (N : ℕ) (hN : 1 ≤ N) (hdt : 0 < dtv) (x : ℚ)
    (hlo : A ≤ x) (hhi : x ≤ A + (N : ℚ) * dtv) :
    histIdx (uniformGrid A dtv (N + 1)) x =
      some (ssRight (uniformGrid A dtv N) x - 1) := by
  have hhead : (uniformGrid A dtv (N + 1)).headD 0 = A :=
    uniformGrid_headD _ _ _ (by omega)
  have hlast : (uniformGrid A dtv (N + 1)).getLastD 0 = A + (N : ℚ) * dtv := by
    rw [uniformGrid_getLastD _ _ _ (by omega), Nat.add_sub_cancel]
  rw [histIdx, hhead, hlast]
  rw [if_neg (by push_neg; exact ⟨hlo, hhi⟩)]
  by_cases hx : x = A + (N : ℚ) * dtv
  · rw [if_pos hx]
    rw [uniformGrid_length]
    rw [ssRight_uniform_top A dtv N hN hdt x (le_of_eq hx.symm)]
    all_goals (congr 1 <;> omega)
  · rw [if_neg hx]
    rw [show uniformGrid A dtv (N + 1) = uniformGrid A dtv N ++ [A + (N : ℚ) * dtv]
      from uniformGrid_succ_concat A dtv N]
    rw [ssRight_append]
    rw [show ssRight [A + (N : ℚ) * dtv] x = 0 by
      rw [ssRight, List.filter_cons, if_neg
        (by simpa using not_le.2 (lt_of_le_of_ne hhi hx)), List.filter_nil]
      rfl]
    all_goals (congr 1 <;> omega)

/-- C1: single-event livetime conservation on a contiguous uniform-width axis.
For every event whose livetime interval lies inside the axis, the returned
array sums exactly to the event's prior — this is proved for every interior
span count at once, so in particular for `k = 0, 1, 2, 5` full interior bins —
and an interval entirely inside one bin puts exactly the prior into that bin
and nothing anywhere else. -/
theorem c1_conservation_single_event (t0 dtv ev pr : ℚ) (N : ℕ)
    (hN : 1 ≤ N) (hdt : 0 < dtv) (hpr : 0 < pr)
    (hlo : t0 - dtv / 2 ≤ ev - pr)
    (hhi : ev < t0 - dtv / 2 + (N : ℚ) * dtv) :
    ∃ out, get_livetime_per_bin (uniformGrid t0 dtv N) [ev] [pr]
        (some (Sum.inl dtv)) none = Except.ok out ∧
      out.sum = pr ∧
      (∀ j : ℕ, j < N → t0 - dtv / 2 + (j : ℚ) * dtv ≤ ev - pr →
        ev < t0 - dtv / 2 + ((j : ℚ) + 1) * dtv →
        out = (List.replicate N 0).set j pr) := by
  have hA_lo : t0 - dtv / 2 - ev ≤ 0 - pr := by linarith
  have hA_neg : t0 - dtv / 2 - ev < 0 := by linarith
  have hlast_pos : 0 < t0 - dtv / 2 - ev + (N : ℚ) * dtv := by linarith
  rw [single_run_reduce t0 dtv ev pr N hN none]
  set A := t0 - dtv / 2 - ev with hA
  set t1 : Trip := Trip.mk 0 pr (0 - pr) with ht1
  set ts := uniformGrid A dtv N with hts
  have hsorted : List.Pairwise (· < ·) ts := uniformGrid_pairwise _ _ _ hdt
  have htsne : ts ≠ [] := uniformGrid_ne_nil _ _ _ (by omega)
  have htshead : ts.headD 0 = A := uniformGrid_headD _ _ _ (by omega)
  have htslen : ts.length = N := uniformGrid_length _ _ _
  -- ranks
  set rl := ssRight ts (0 - pr) with hrl
  set re := ssRight ts 0 with hre
  have hrl1 : 1 ≤ rl := ssRight_pos ts _ hsorted htsne (by rw [htshead]; exact hA_lo)
  have hrle : rl ≤ re := ssRight_mono ts _ _ (by linarith)
  have hreN : re ≤ N := by rw [← htslen]; exact ssRight_le_length ts 0
  have hkept : keptTrips (uniformGrid A dtv (N + 1)) [t1] = [t1] := by
    rw [keptTrips, List.filter_cons, if_pos, List.filter_nil]
    have hh : (uniformGrid A dtv (N + 1)).headD 0 = A :=
      uniformGrid_headD _ _ _ (by omega)
    have hl : (uniformGrid A dtv (N + 1)).getLastD 0 = A + (N : ℚ) * dtv := by
      rw [uniformGrid_getLastD _ _ _ (by omega), Nat.add_sub_cancel]
    rw [hh, hl]
    simp only [Bool.and_eq_true, decide_eq_true_eq, ht1]
    exact ⟨hA_neg, by linarith⟩
  have hnorm : normTrips (uniformGrid A dtv (N + 1)) [t1] = [t1] := by
    rw [normTrips, List.map_cons, List.map_nil]
    have hh : (uniformGrid A dtv (N + 1)).headD 0 = A :=
      uniformGrid_headD _ _ _ (by omega)
    have hl : (uniformGrid A dtv (N + 1)).getLastD 0 = A + (N : ℚ) * dtv := by
      rw [uniformGrid_getLastD _ _ _ (by omega), Nat.add_sub_cancel]
    rw [hh, hl]
    rw [show normStart A t1 = t1 by
      rw [normStart, if_neg]
      intro hcon
      have := hcon.1
      simp only [ht1] at this
      linarith]
    rw [show normEnd (A + (N : ℚ) * dtv) t1 = t1 by
      rw [normEnd, if_neg]
      intro hcon
      have := hcon.2
      simp only [ht1] at this
      linarith]
  rw [hkept, hnorm]
  have hEval : evBinOf ts t1 = (re : ℤ) - 1 := rfl
  have hLval : ltsBinOf ts t1 = (rl : ℤ) - 1 := rfl
  by_cases hsame : evBinOf ts t1 = ltsBinOf ts t1
  · -- start and end in the same bin
    have hrerl : re = rl := by
      rw [hEval, hLval] at hsame
      omega
    rw [accumulate_samebin (uniformGrid t0 dtv N) A dtv N
      (uniformGrid_length _ _ _) hN hdt t1 hsame]
    have hhist : histIdx (uniformGrid A dtv (N + 1)) t1.ev =
        some (ssRight ts 0 - 1) := by
      rw [show t1.ev = 0 from rfl]
      exact histIdx_uniform A dtv N hN hdt 0 (by linarith) (by linarith)
    rw [hhist]
    have hre1 : 1 ≤ re := le_trans hrl1 (by omega)
    have hreN2 : re - 1 < N := by omega
    have hout : (List.range N).map (fun i =>
        if some (ssRight ts 0 - 1) = some i then t1.pr else 0) =
      (List.replicate N 0).set (re - 1) pr := by
      rw [show t1.pr = pr from rfl]
      rw [← indicator_eq_set_replicate pr N (re - 1) hreN2]
      congr 1
      funext i
      by_cases hc : re - 1 = i
      · rw [if_pos (by rw [← hre, hc]), if_pos hc]
      · rw [if_neg (by rw [← hre]; simpa using hc), if_neg hc]
    rw [hout]
    refine ⟨_, rfl, ?_, ?_⟩
    · rw [← indicator_eq_set_replicate pr N (re - 1) hreN2]
      exact sum_indicator_lt (re - 1) pr N hreN2
    · intro j hj hj1 hj2
      -- the hypotheses pin the bin: rank of both endpoints is j + 1
      have hgj : ts.getD j 0 = A + (j : ℚ) * dtv := uniformGrid_getD _ _ _ _ hj
      have hj1A : ts.getD j 0 ≤ 0 - pr := by
        rw [hgj, hA]
        linarith
      have hrlj : j + 1 ≤ rl := by
        have := (ssRight_rank_iff ts (0 - pr) hsorted j (by omega)).1 hj1A
        omega
      have hrej : re ≤ j + 1 := by
        by_contra hcon
        push_neg at hcon
        have hj1N : j + 1 < N := by omega
        have hgd := (ssRight_rank_iff ts 0 hsorted (j + 1) (by omega)).2 (by omega)
        rw [uniformGrid_getD _ _ _ _ hj1N] at hgd
        rw [hA] at hgd
        push_cast at hgd
        linarith
      have hjre : j = re - 1 := by omega
      rw [hjre]
  · -- the interval spans several bins
    have hrlt : rl < re := by
      rw [hEval, hLval] at hsame
      omega
    set b := re - rl with hb
    have hb1 : 1 ≤ b := by omega
    rw [accumulate_span (uniformGrid t0 dtv N) A dtv N
      (uniformGrid_length _ _ _) hN hdt t1 hsame]
    have hdiff : (evBinOf ts t1 - ltsBinOf ts t1).toNat = b := by
      rw [hEval, hLval]
      omega
    rw [hdiff]
    have hd2 : evBinOf ts t1 = ltsBinOf ts t1 + (b : ℤ) := by
      rw [hEval, hLval]
      omega
    have hterm : ts.getD (evBinOf ts t1).toNat 0 ≤ t1.ev := by
      have htn : (evBinOf ts t1).toNat = re - 1 := by
        rw [hEval]
        omega
      rw [htn, show t1.ev = 0 from rfl]
      exact ssRight_lb ts 0 hsorted (by omega)
    have hinit : t1.lts ≤ ts.getD (ssRight ts t1.lts) 0 := by
      have hlts : t1.lts = 0 - pr := rfl
      rw [hlts, ← hrl]
      have hrlN : rl < ts.length := by
        rw [htslen]
        omega
      exact le_of_lt (ssRight_ub ts (0 - pr) hsorted hrlN)
    obtain ⟨out, hrun, holen, hosum, hoget⟩ :=
      passBody_single ts N dtv t1 b (List.replicate N 0) htslen
        (List.length_replicate _ _) hb1 hd2
        (by rw [hLval]; omega) (by rw [hEval]; omega) hterm hinit
    refine ⟨out, spanLoop_single_top ts (List.replicate N dtv) t1 b hb1 hd2 _ _
      hrun, ?_, ?_⟩
    · rw [hosum]
      have hs0 : (List.replicate N (0 : ℚ)).sum = 0 := by simp
      have hgE : ts.getD (evBinOf ts t1).toNat 0 = A + ((re : ℚ) - 1) * dtv := by
        have htn : (evBinOf ts t1).toNat = re - 1 := by
          rw [hEval]
          omega
        rw [htn, uniformGrid_getD _ _ _ _ (by omega)]
        congr 2
        push_cast [show 1 ≤ re by omega]
        ring
      have hgL : ts.getD (ssRight ts t1.lts) 0 = A + (rl : ℚ) * dtv := by
        rw [show t1.lts = 0 - pr from rfl, ← hrl,
          uniformGrid_getD _ _ _ _ (by omega)]
      rw [hs0, hgE, hgL, show t1.ev = 0 from rfl, show t1.lts = 0 - pr from rfl]
      have hbq : (b : ℚ) = (re : ℚ) - (rl : ℚ) := by
        rw [hb]
        push_cast [show rl ≤ re by omega]
        ring
      rw [hbq]
      ring
    · intro j hj hj1 hj2
      exfalso
      have hgj : ts.getD j 0 = A + (j : ℚ) * dtv := uniformGrid_getD _ _ _ _ hj
      have hj1A : ts.getD j 0 ≤ 0 - pr := by
        rw [hgj, hA]
        linarith
      have hrlj : j + 1 ≤ rl := by
        have := (ssRight_rank_iff ts (0 - pr) hsorted j (by omega)).1 hj1A
        omega
      have hrej : re ≤ j + 1 := by
        by_contra hcon
        push_neg at hcon
        have hj1N : j + 1 < N := by omega
        have hgd := (ssRight_rank_iff ts 0 hsorted (j + 1) (by omega)).2 (by omega)
        rw [uniformGrid_getD _ _ _ _ hj1N] at hgd
        rw [hA] at hgd
        push_cast at hgd
        linarith
      omega

/-- C1 witness: conservation instantiated on the three-bin axis with the event
at `2.2`, prior `1.5` (one full interior bin plus two partial ends). -/
theorem c1_witness :
    (1 ≤ 3) ∧ (0 : ℚ) < 1 ∧ (0 : ℚ) < 3/2 ∧
    ((1/2 : ℚ) - 1/2 ≤ 11/5 - 3/2) ∧
    ((11/5 : ℚ) < 1/2 - 1/2 + ((3 : ℕ) : ℚ) * 1) ∧
    (∃ out, get_livetime_per_bin (uniformGrid (1/2) 1 3) [11/5] [3/2]
        (some (Sum.inl 1)) none = Except.ok out ∧
      out.sum = 3/2 ∧
      (∀ j : ℕ, j < 3 → (1/2 : ℚ) - 1/2 + (j : ℚ) * 1 ≤ 11/5 - 3/2 →
        (11/5 : ℚ) < 1/2 - 1/2 + ((j : ℚ) + 1) * 1 →
        out = (List.replicate 3 0).set j (3/2))) :=
  ⟨by norm_num, by norm_num, by norm_num, by norm_num, by norm_num,
    c1_conservation_single_event (1/2) 1 (11/5) (3/2) 3 (by norm_num)
      (by norm_num) (by norm_num) (by norm_num) (by norm_num)⟩

/-! ### Claim C3: output bounds -/

/-- C3 counterexample: the claimed preconditions do not force a contiguous
axis.  On `times = [0, 10]`, `dt = 1` (equal lengths, nonnegative prior,
ascending times and events) a single event at `t = 5` with prior `3` falls in
the wide gap belonging to bin 0, which receives livetime `3`, exceeding
`dt[0] = 1` by far more than any sub-epsilon slack. -/
theorem c3_counterexample_gap_axis :
    get_livetime_per_bin [0, 10] [5] [3] (some (Sum.inl 1)) none =
      Except.ok [3, 0] ∧ ¬ ((3 : ℚ) ≤ 1 + 1 / 1000000000) := by
  constructor
  · norm_num [get_livetime_per_bin, resolveDt, tbinsOf, initTrips, keptTrips,
      normTrips, normStart, normEnd, accumulate, histogramW, histIdx, monotoneB,
      ssRight, evBinOf, ltsBinOf, spanLoop, passBody, innerFill, gatherQ, npGetQ,
      npIdx, scatterAdd, gatherAdds, EPS, List.filter, List.replicate,
      List.zipWith, List.map, List.headD, List.getLastD, List.getLast?,
      List.head?, Option.getD, Option.map, Option.or, List.getD, List.foldl,
      List.all, List.zip, List.range_succ, List.dropLast, List.set, List.length,
      List.tail, List.append, List.get?, Int.toNat, Except.instMonad,
      Except.bind, Except.pure, Bind.bind, Pure.pure] <;> simp
  · norm_num

theorem getD_replicate_zero (N j : ℕ) : (List.replicate N (0 : ℚ)).getD j 0 = 0 := by
  rcases lt_or_ge j N with h | h
  · rw [List.getD_eq_getElem _ _ (by rw [List.length_replicate]; exact h)]
    exact List.getElem_replicate _ _
  · rw [List.getD_eq_getElem?_getD, List.getElem?_eq_none
      (by rw [List.length_replicate]; exact h)]
    rfl

theorem accumulate_nil_trips (times : List ℚ) (A dtv : ℚ) (N : ℕ)
    (hdt : 0 < dtv) :
    accumulate times (uniformGrid A dtv (N + 1)) (List.replicate N dtv) [] =
      .error .emptyMax := by
  have hmono : monotoneB (uniformGrid A dtv (N + 1)) = true :=
    monotoneB_of_pairwise _
      ((uniformGrid_pairwise A dtv (N + 1) hdt).imp le_of_lt)
  rw [accumulate]
  dsimp only
  rw [List.filter_nil]
  rw [show (([] : List Trip).map (fun t => t.ev)) = [] from rfl]
  rw [show (([] : List Trip).map (fun t => t.pr)) = [] from rfl]
  rw [histogramW_nil _ hmono]
  dsimp only
  rw [if_pos (vacuous_all_check _)]
  rfl

/-- Facts about the single normalised trip: its livetime start is at or after
the first border, its prior equals `ev - lts`, it is never below `-1e-9`, and
either the event is inside the last border or the whole (clamped) interval
sits at or beyond it. -/
theorem norm_facts (A lastE pr : ℚ) (hpr : 0 ≤ pr) (hA0 : A < 0)
    (hlst : 0 - pr < lastE) :
    A ≤ (normEnd lastE (normStart A (Trip.mk 0 pr (0 - pr)))).lts ∧
    (normEnd lastE (normStart A (Trip.mk 0 pr (0 - pr)))).pr =
      (normEnd lastE (normStart A (Trip.mk 0 pr (0 - pr)))).ev -
        (normEnd lastE (normStart A (Trip.mk 0 pr (0 - pr)))).lts ∧
    -EPS ≤ (normEnd lastE (normStart A (Trip.mk 0 pr (0 - pr)))).pr ∧
    ((normEnd lastE (normStart A (Trip.mk 0 pr (0 - pr)))).ev ≤ lastE ∨
      lastE ≤ (normEnd lastE (normStart A (Trip.mk 0 pr (0 - pr)))).lts) := by
  have hEPS : (0 : ℚ) < EPS := by norm_num [EPS]
  rw [normStart, normEnd]
  dsimp only
  split_ifs with h1 h2 h3 <;> dsimp only at *
  · exact ⟨by linarith, by ring, by linarith [h2.1], Or.inl (by linarith)⟩
  · refine ⟨by linarith, by ring, by linarith, ?_⟩
    rcases le_or_lt lastE (A + EPS) with hc | hc
    · exact Or.inr hc
    · rcases lt_or_ge lastE 0 with hc2 | hc2
      · exact absurd ⟨hc, hc2⟩ h2
      · exact Or.inl (by linarith)
  · have haux : A ≤ 0 - pr := not_lt.1 (fun hp => h1 ⟨hp, hA0⟩)
    exact ⟨by linarith, by ring, by linarith, Or.inl (by linarith)⟩
  · have haux : A ≤ 0 - pr := not_lt.1 (fun hp => h1 ⟨hp, hA0⟩)
    refine ⟨by linarith, by ring, by linarith, ?_⟩
    rcases lt_or_ge lastE 0 with hc2 | hc2
    · exact absurd ⟨hlst, hc2⟩ h3
    · exact Or.inl (by linarith)

/-- C3 amended: on a contiguous uniform-width axis, for a single event (any
position, any nonnegative prior), whenever the function returns an array it
has one entry per bin and every entry lies between `-1e-9` (clamping slack)
and the bin width `dt`. -/
theorem c3_amended_bounds_single_event (t0 dtv ev pr : ℚ) (N : ℕ)
    (hN : 1 ≤ N) (hdt : 0 < dtv) (hpr : 0 ≤ pr) (out : List ℚ)
    (hok : get_livetime_per_bin (uniformGrid t0 dtv N) [ev] [pr]
      (some (Sum.inl dtv)) none = Except.ok out) :
    out.length = N ∧ ∀ j : ℕ, j < N → -EPS ≤ out.getD j 0 ∧ out.getD j 0 ≤ dtv := by
  have hEPS : (0 : ℚ) < EPS := by norm_num [EPS]
  rw [single_run_reduce t0 dtv ev pr N hN none] at hok
  set A := t0 - dtv / 2 - ev with hA
  set t1 : Trip := Trip.mk 0 pr (0 - pr) with ht1
  have hh : (uniformGrid A dtv (N + 1)).headD 0 = A :=
    uniformGrid_headD _ _ _ (by omega)
  have hl : (uniformGrid A dtv (N + 1)).getLastD 0 = A + (N : ℚ) * dtv := by
    rw [uniformGrid_getLastD _ _ _ (by omega), Nat.add_sub_cancel]
  by_cases hkeep : A < 0 ∧ 0 - pr < A + (N : ℚ) * dtv
  case neg =>
    exfalso
    have hkept0 : keptTrips (uniformGrid A dtv (N + 1)) [t1] = [] := by
      rw [keptTrips, List.filter_cons, if_neg, List.filter_nil]
      rw [hh, hl]
      simp only [Bool.and_eq_true, decide_eq_true_eq, ht1, not_and]
      intro hc1 hc2
      exact hkeep ⟨hc1, hc2⟩
    rw [hkept0] at hok
    rw [show normTrips (uniformGrid A dtv (N + 1)) [] = [] from rfl] at hok
    rw [accumulate_nil_trips _ A dtv N hdt] at hok
    exact Except.noConfusion hok
  case pos =>
    have hA0 : A < 0 := hkeep.1
    have hlst : 0 - pr < A + (N : ℚ) * dtv := hkeep.2
    have hkept : keptTrips (uniformGrid A dtv (N + 1)) [t1] = [t1] := by
      rw [keptTrips, List.filter_cons, if_pos, List.filter_nil]
      rw [hh, hl]
      simp only [Bool.and_eq_true, decide_eq_true_eq, ht1]
      exact ⟨hA0, hlst⟩
    rw [hkept] at hok
    have hnorm1 : normTrips (uniformGrid A dtv (N + 1)) [t1] =
        [normEnd (A + (N : ℚ) * dtv) (normStart A t1)] := by
      rw [normTrips, List.map_cons, List.map_nil, hh, hl]
    rw [hnorm1] at hok
    obtain ⟨f_a, f_eq, f_lb, f_disj⟩ := norm_facts A (A + (N : ℚ) * dtv) pr hpr hA0 hlst
    set t' := normEnd (A + (N : ℚ) * dtv) (normStart A t1) with ht'
    set ts := uniformGrid A dtv N with hts
    have hsorted : List.Pairwise (· < ·) ts := uniformGrid_pairwise _ _ _ hdt
    have htsne : ts ≠ [] := uniformGrid_ne_nil _ _ _ (by omega)
    have htshead : ts.headD 0 = A := uniformGrid_headD _ _ _ (by omega)
    have htslen : ts.length = N := uniformGrid_length _ _ _
    set rl := ssRight ts t'.lts with hrl
    set re := ssRight ts t'.ev with hre
    have hrl1 : 1 ≤ rl :=
      ssRight_pos ts _ hsorted htsne (by rw [htshead]; exact f_a)
    have hrlN : rl ≤ N := by rw [← htslen]; exact ssRight_le_length ts _
    have hreN : re ≤ N := by rw [← htslen]; exact ssRight_le_length ts _
    have hEval : evBinOf ts t' = (re : ℤ) - 1 := rfl
    have hLval : ltsBinOf ts t' = (rl : ℤ) - 1 := rfl
    by_cases hsame : evBinOf ts t' = ltsBinOf ts t'
    · -- same-bin: the whole prior is histogrammed (or dropped if out of range)
      rw [accumulate_samebin (uniformGrid t0 dtv N) A dtv N
        (uniformGrid_length _ _ _) hN hdt t' hsame] at hok
      have hout := (Except.ok.inj hok).symm
      have hrerl : re = rl := by
        rw [hEval, hLval] at hsame
        omega
      by_cases hrange : A ≤ t'.ev ∧ t'.ev ≤ A + (N : ℚ) * dtv
      · have hhist : histIdx (uniformGrid A dtv (N + 1)) t'.ev = some (re - 1) :=
          histIdx_uniform A dtv N hN hdt t'.ev hrange.1 hrange.2
        have hre1 : 1 ≤ re := by omega
        have hreN2 : re - 1 < N := by omega
        have hform : out = (List.replicate N 0).set (re - 1) t'.pr := by
          rw [hout, hhist, ← indicator_eq_set_replicate t'.pr N (re - 1) hreN2]
          congr 1
          funext i
          by_cases hc : re - 1 = i
          · rw [if_pos (by rw [hc]), if_pos hc]
          · rw [if_neg (by simpa using hc), if_neg hc]
        have hprub : t'.pr ≤ dtv := by
          rw [f_eq]
          have hlts_lb : ts.getD (rl - 1) 0 ≤ t'.lts := ssRight_lb ts _ hsorted hrl1
          rw [uniformGrid_getD _ _ _ _ (by omega)] at hlts_lb
          rw [Nat.cast_pred (show 0 < rl by omega)] at hlts_lb
          rcases lt_or_ge re N with hcase | hcase
          · have hub := ssRight_ub ts t'.ev hsorted (by rw [htslen]; exact hcase)
            rw [uniformGrid_getD _ _ _ _ hcase] at hub
            have hrlq : (rl : ℚ) = (re : ℚ) := by rw [hrerl]
            rw [hrlq] at hlts_lb
            nlinarith
          · have hreN' : re = N := by omega
            have hrlq : (rl : ℚ) = (N : ℚ) := by rw [← hrerl, hreN']
            rw [hrlq] at hlts_lb
            have := hrange.2
            linarith
        refine ⟨by rw [hform, length_set_q, List.length_replicate], ?_⟩
        intro j hj
        rw [hform, getD_set_q _ _ _ _ (by rw [List.length_replicate]; exact hj)]
        by_cases hc : re - 1 = j
        · rw [if_pos hc]
          exact ⟨f_lb, hprub⟩
        · rw [if_neg hc, getD_replicate_zero]
          constructor <;> linarith
      · -- out-of-range event: the histogram drops the point entirely
        have hhist : histIdx (uniformGrid A dtv (N + 1)) t'.ev = none := by
          rw [histIdx, hh, hl, if_pos]
          rcases not_and_or.1 hrange with hcc | hcc
          · exact Or.inl (not_le.1 hcc)
          · exact Or.inr (not_le.1 hcc)
        have hform : out = List.replicate N 0 := by
          rw [hout, hhist, ← map_const_zero N]
          congr 1
        refine ⟨by rw [hform, List.length_replicate], ?_⟩
        intro j hj
        rw [hform, getD_replicate_zero]
        constructor <;> linarith
    · -- spanning event
      rw [accumulate_span (uniformGrid t0 dtv N) A dtv N
        (uniformGrid_length _ _ _) hN hdt t' hsame] at hok
      rcases lt_or_gt_of_ne (fun hx => hsame hx) with hlt | hgt
      · -- event bin before livetime-start bin: nothing is accumulated
        have hz : (evBinOf ts t' - ltsBinOf ts t').toNat = 0 := by
          rw [hEval, hLval] at hlt ⊢
          omega
        rw [hz] at hok
        have hout := (Except.ok.inj hok).symm
        refine ⟨by rw [hout, List.length_replicate], ?_⟩
        intro j hj
        rw [hout, getD_replicate_zero]
        constructor <;> linarith
      · -- genuine span: terminal, initial and interior contributions
        have hrlre : rl < re := by
          rw [hEval, hLval] at hgt
          omega
        set b := re - rl with hb
        have hb1 : 1 ≤ b := by omega
        have hdiff : (evBinOf ts t' - ltsBinOf ts t').toNat = b := by
          rw [hEval, hLval]
          omega
        rw [hdiff] at hok
        have hd2 : evBinOf ts t' = ltsBinOf ts t' + (b : ℤ) := by
          rw [hEval, hLval]
          omega
        have hevle : t'.ev ≤ A + (N : ℚ) * dtv := by
          rcases f_disj with hd | hd
          · exact hd
          · exfalso
            have : rl = N := by
              rw [hrl]
              exact ssRight_uniform_top A dtv N hN hdt t'.lts hd
            omega
        have hre1 : 1 ≤ re := by omega
        have hterm : ts.getD (evBinOf ts t').toNat 0 ≤ t'.ev := by
          have htn : (evBinOf ts t').toNat = re - 1 := by
            rw [hEval]
            omega
          rw [htn]
          exact ssRight_lb ts _ hsorted hre1
        have hinit : t'.lts ≤ ts.getD (ssRight ts t'.lts) 0 := by
          have hrlN2 : rl < ts.length := by
            rw [htslen]
            omega
          exact le_of_lt (ssRight_ub ts _ hsorted hrlN2)
        obtain ⟨pout, hrun, holen, hosum, hoget⟩ :=
          passBody_single ts N dtv t' b (List.replicate N 0) htslen
            (List.length_replicate _ _) hb1 hd2
            (by rw [hLval]; omega) (by rw [hEval]; omega) hterm hinit
        rw [spanLoop_single_top ts (List.replicate N dtv) t' b hb1 hd2 _ _ hrun]
          at hok
        have hout := (Except.ok.inj hok).symm
        subst hout
        refine ⟨holen, ?_⟩
        intro j hj
        -- bound the three possible contributions
        have htermub : t'.ev - ts.getD (evBinOf ts t').toNat 0 ≤ dtv := by
          have htn : (evBinOf ts t').toNat = re - 1 := by
            rw [hEval]
            omega
          rw [htn, uniformGrid_getD _ _ _ _ (by omega),
            Nat.cast_pred (show 0 < re by omega)]
          rcases lt_or_ge re N with hcase | hcase
          · have hub := ssRight_ub ts t'.ev hsorted (by rw [htslen]; exact hcase)
            rw [uniformGrid_getD _ _ _ _ hcase] at hub
            linarith
          · have hreN' : re = N := by omega
            rw [hreN']
            linarith [hevle]
        have htermlb : 0 ≤ t'.ev - ts.getD (evBinOf ts t').toNat 0 := by
          linarith [hterm]
        have hinitub : ts.getD (ssRight ts t'.lts) 0 - t'.lts ≤ dtv := by
          have hlts_lb : ts.getD (rl - 1) 0 ≤ t'.lts := ssRight_lb ts _ hsorted hrl1
          rw [uniformGrid_getD _ _ _ _ (show rl - 1 < N by omega)] at hlts_lb
          rw [uniformGrid_getD _ _ _ _ (show rl < N by omega)]
          rw [Nat.cast_pred (show 0 < rl by omega)] at hlts_lb
          linarith
        have hinitlb : 0 ≤ ts.getD (ssRight ts t'.lts) 0 - t'.lts := by
          linarith [hinit]
        rw [hoget j hj, getD_replicate_zero]
        split_ifs with hc1 hc2 hc3 <;>
          constructor <;> first | linarith | (exfalso; omega)

theorem c3_witness :
    (1 ≤ 3) ∧ (0 : ℚ) < 1 ∧ (0 : ℚ) ≤ 3/2 ∧
    ([(3 : ℚ)/10, 1, 1/5].length = 3 ∧
      ∀ j : ℕ, j < 3 → -EPS ≤ [(3 : ℚ)/10, 1, 1/5].getD j 0 ∧
        [(3 : ℚ)/10, 1, 1/5].getD j 0 ≤ 1) :=
  ⟨by norm_num, by norm_num, by norm_num,
    c3_amended_bounds_single_event (1/2) 1 (11/5) (3/2) 3 (by norm_num)
      (by norm_num) (by norm_num) [(3 : ℚ)/10, 1, 1/5] (by
        have huni : uniformGrid (1/2 : ℚ) 1 3 = [1/2, 3/2, 5/2] := by
          norm_num [uniformGrid, List.range_succ, List.range_zero, List.map]
        rw [huni]
        norm_num [get_livetime_per_bin, resolveDt, tbinsOf, initTrips,
          keptTrips, normTrips, normStart, normEnd, accumulate, histogramW,
          histIdx, monotoneB, ssRight, evBinOf, ltsBinOf, spanLoop, passBody,
          innerFill, gatherQ, npGetQ, npIdx, scatterAdd, gatherAdds, EPS,
          List.filter, List.replicate, List.zipWith, List.map, List.headD,
          List.getLastD, List.getLast?, List.head?, Option.getD, Option.map,
          Option.or, List.getD, List.foldl, List.all, List.zip, List.range_succ,
          List.dropLast, List.set, List.length, List.tail, List.append,
          List.get?, Int.toNat, Except.instMonad, Except.bind, Except.pure,
          Bind.bind, Pure.pure] <;> simp)⟩
